import Mathlib

/-! UART bit-sample receiver (`projekt/src/rs232.c`).

A shallow embedding of the receiver in `rs232.c`: the two tick-interval
generators `ticks_for_one_bit` / `ticks_for_half_bit` and the per-sample state
machine `printOut`.  The C file keeps its state in two file-level accumulators
and six function-local statics; here they are the fields of one `State` record
that every function takes and returns.  Machine integers are naturals with the
wrap-around written out (`% 2^32` for `uint32_t`, `% 256` for `uint8_t`).
What `printOut` writes to `stdout` is returned as a list of `Output` items, one
per `printf` call.
-/

namespace Rs232

/-! ## Constants -/

/-- Calls of `printOut` per second (`SIM_SAMPLE_HZ = 180000000u`). -/
def SIM_SAMPLE_HZ : Nat := 180000000

/-- Bits per second (`BAUD_RATE = 115200u`). -/
def BAUD_RATE : Nat := 115200

/-- Modulus of `uint32_t` arithmetic. -/
def U32 : Nat := 4294967296

/-- Modulus of `uint8_t` arithmetic. -/
def U8 : Nat := 256

/-! ## State and output -/

/-- The persistent storage of `rs232.c`: the two file-level accumulators and
the six `static` locals of `printOut`. -/
structure State where
  /-- `static uint32_t frac_accum_bit` -/
  frac_accum_bit : Nat
  /-- `static uint8_t frac_accum_half` -/
  frac_accum_half : Nat
  /-- `static bool is_receiving` -/
  is_receiving : Bool
  /-- `static uint32_t ticks_until_sample` -/
  ticks_until_sample : Nat
  /-- `static uint8_t bit_index` -/
  bit_index : Nat
  /-- `static uint8_t rx_byte` -/
  rx_byte : Nat
  /-- `static uint8_t last_val` -/
  last_val : Nat
  /-- `static bool seen_idle_one` -/
  seen_idle_one : Bool
  deriving DecidableEq, Repr

/-- The values of the static initialisers. -/
def init : State where
  frac_accum_bit := 0
  frac_accum_half := 0
  is_receiving := false
  ticks_until_sample := 0
  bit_index := 0
  rx_byte := 0
  last_val := 1
  seen_idle_one := false

/-- Every field lies in the range of its C type. -/
def State.inRange (s : State) : Prop :=
  s.frac_accum_bit < U32 ∧ s.frac_accum_half < U8 ∧ s.ticks_until_sample < U32 ∧
  s.bit_index < U8 ∧ s.rx_byte < U8 ∧ s.last_val < U8

instance (s : State) : Decidable s.inRange := by
  unfold State.inRange; infer_instance

/-- One `printf` call of `printOut`: `printf("%c", rx_byte)` or
`printf("Stoppbit falsch!\n")`. -/
inductive Output where
  | char (c : Nat)
  | stoppbitFalsch
  deriving DecidableEq, Repr

/-- The bytes a `printf` call of `printOut` writes to `stdout`. -/
def Output.bytes : Output → List Nat
  | .char c => [c]
  | .stoppbitFalsch => "Stoppbit falsch!\n".toList.map Char.toNat

/-- The byte stream on `stdout` for a sequence of `printf` calls. -/
def stdoutBytes : List Output → List Nat
  | [] => []
  | o :: os => o.bytes ++ stdoutBytes os

/-! ## Tick-interval generators -/

/-- `ticks_for_one_bit`: the returned tick count and the state with
`frac_accum_bit` advanced. -/
def ticks_for_one_bit (s : State) : Nat × State :=
  let ticks := SIM_SAMPLE_HZ / BAUD_RATE
  let acc := (s.frac_accum_bit + SIM_SAMPLE_HZ % BAUD_RATE) % U32
  if acc ≥ BAUD_RATE then
    ((ticks + 1) % U32, { s with frac_accum_bit := acc - BAUD_RATE })
  else
    (ticks, { s with frac_accum_bit := acc })

/-- `ticks_for_half_bit`: the returned tick count and the state with
`frac_accum_half` advanced. -/
def ticks_for_half_bit (s : State) : Nat × State :=
  let ticks := (SIM_SAMPLE_HZ / BAUD_RATE) / 2
  let h := (((s.frac_accum_half + 1) % U32) &&& 3) % U8
  if h = 0 then
    ((ticks + 1) % U32, { s with frac_accum_half := h })
  else
    (ticks, { s with frac_accum_half := h })

/-! ## The frame state machine -/

/-- `printOut(val)`: the state after the call and what the call printed. -/
def printOut (s : State) (val : Nat) : State × List Output :=
  if s.is_receiving = false then
    let s1 := if val = 1 then { s with seen_idle_one := true } else s
    let s2 :=
      if s1.seen_idle_one = true ∧ s1.last_val = 1 ∧ val = 0 then
        let s3 := { s1 with is_receiving := true, bit_index := 0, rx_byte := 0 }
        let h := ticks_for_half_bit s3
        let t := ticks_for_one_bit h.2
        { t.2 with ticks_until_sample := (h.1 + t.1) % U32 }
      else s1
    ({ s2 with last_val := val }, [])
  else if s.ticks_until_sample > 0 then
    ({ s with ticks_until_sample := s.ticks_until_sample - 1 }, [])
  else if s.bit_index < 8 then
    let s1 :=
      if val ≠ 0 then
        { s with rx_byte := (s.rx_byte ||| ((1 <<< s.bit_index) % U32) % U8) % U8 }
      else s
    let s2 := { s1 with bit_index := (s1.bit_index + 1) % U8 }
    let t := ticks_for_one_bit s2
    ({ t.2 with ticks_until_sample := t.1 }, [])
  else
    let out := if val = 1 then [Output.char s.rx_byte] else [Output.stoppbitFalsch]
    ({ s with is_receiving := false, last_val := val }, out)

/-- Feed a sequence of samples, one `printOut` call per sample, collecting the
output in order. -/
def run (s : State) : List Nat → State × List Output
  | [] => (s, [])
  | v :: vs =>
    let r := printOut s v
    let r2 := run r.1 vs
    (r2.1, r.2 ++ r2.2)

/-! ## Waveforms -/

/-- Bit `k` of the byte `b` as a line level. -/
def bitOf (b k : Nat) : Nat := b / 2 ^ k % 2

/-- The first `k` data-bit periods of a frame for `b`, least-significant bit
first; data bit `i` is held for `p (i + 1)` samples. -/
def dataBits (b : Nat) (p : Nat → Nat) : Nat → List Nat
  | 0 => []
  | k + 1 => dataBits b p k ++ List.replicate (p (k + 1)) (bitOf b k)

/-- A frame for the byte `b`: a logic-0 start bit held for `p 0` samples, the
eight data bits, and a tenth period of `p 9` samples at level `stop`. -/
def frame (b : Nat) (p : Nat → Nat) (stop : Nat) : List Nat :=
  List.replicate (p 0) 0 ++ dataBits b p 8 ++ List.replicate (p 9) stop

/-- Every one of the ten bit periods lasts 1562 or 1563 samples. -/
def periodsOk (p : Nat → Nat) : Prop :=
  ∀ i, i < 10 → p i = 1562 ∨ p i = 1563

instance (p : Nat → Nat) : Decidable (periodsOk p) := by
  unfold periodsOk; infer_instance

/-! ## Sequences of generator calls -/

/-- The values returned by `n` consecutive calls of `ticks_for_one_bit`,
and the state after them. -/
def oneBitCalls : Nat → State → List Nat × State
  | 0, s => ([], s)
  | n + 1, s =>
    let t := ticks_for_one_bit s
    let r := oneBitCalls n t.2
    (t.1 :: r.1, r.2)

/-- The values returned by `n` consecutive calls of `ticks_for_half_bit`,
and the state after them. -/
def halfBitCalls : Nat → State → List Nat × State
  | 0, s => ([], s)
  | n + 1, s =>
    let t := ticks_for_half_bit s
    let r := halfBitCalls n t.2
    (t.1 :: r.1, r.2)

/-! ## Frame invariant -/

/-- The machine is inside a frame for the byte `b` at the boundary in front of
data-bit period `k` (period 8 is the stop bit): `k` data bits have been
sampled, `rx_byte` holds the low `k` bits of `b`, and the next sampling
instant falls inside the coming period. -/
def MidFrame (b k : Nat) (s : State) : Prop :=
  s.is_receiving = true ∧ s.bit_index = k ∧ s.rx_byte = b % 2 ^ k ∧
  s.ticks_until_sample ≤ 784 + 2 * k ∧ s.seen_idle_one = true

/-- The machine is idle with the line last seen high after a high sample: the
next logic-0 sample is a start edge. -/
def Armed (s : State) : Prop :=
  s.is_receiving = false ∧ s.last_val = 1 ∧ s.seen_idle_one = true

/-- The next `printOut` call acts as a sampling instant: it samples a data bit
or the stop bit instead of counting down or watching for a start edge. -/
def atSamplingInstant (s : State) : Prop :=
  s.is_receiving = true ∧ s.ticks_until_sample = 0

instance (s : State) : Decidable (atSamplingInstant s) := by
  unfold atSamplingInstant; infer_instance

/-- An example state at a stop-bit instant, with 0x41 assembled. -/
def stopInstant41 : State :=
  { init with is_receiving := true, bit_index := 8, rx_byte := 0x41, seen_idle_one := true }

/-- The state in front of the first data-bit instant of the first frame of a
run (reached from `init` by one logic-1 sample and 2344 logic-0 samples). -/
def firstDataInstant : State where
  frac_accum_bit := 57600
  frac_accum_half := 1
  is_receiving := true
  ticks_until_sample := 0
  bit_index := 0
  rx_byte := 0
  last_val := 0
  seen_idle_one := true

/-- The state right after the first data-bit instant of the first frame when
the sampled level was 1: 1563 ticks are scheduled. -/
def afterFirstData : State where
  frac_accum_bit := 0
  frac_accum_half := 1
  is_receiving := true
  ticks_until_sample := 1563
  bit_index := 1
  rx_byte := 1
  last_val := 0
  seen_idle_one := true

/-! ## Timing components and per-frame samples -/

/-- The timing components of the state: the fields that decide when the
sampling instants of a frame fall. -/
def timing (s : State) : Bool × Nat × Nat × Nat × Nat :=
  (s.is_receiving, s.bit_index, s.ticks_until_sample, s.frac_accum_bit, s.frac_accum_half)

/-- The value of a list of bits, least-significant first: the sum of
`v_k * 2 ^ k`. -/
def lsbValue : List Nat → Nat
  | [] => 0
  | v :: vs => v + 2 * lsbValue vs

/-- The bit a data-bit instant records for a line level (`if (val)` in the
source): 1 for a non-zero level, 0 for level 0. -/
def levelBit (v : Nat) : Nat := if v ≠ 0 then 1 else 0

/-- Bookkeeping of the data bits sampled in the current frame across one call
`printOut(v)` made in state `s`: a call that detects a start edge starts an
empty list, a data-bit sampling instant appends the sampled bit, every other
call leaves the list alone. -/
def stepBits (s : State) (g : List Nat) (v : Nat) : List Nat :=
  if s.is_receiving = false then
    if (printOut s v).1.is_receiving = true then [] else g
  else if s.ticks_until_sample = 0 ∧ s.bit_index < 8 then g ++ [levelBit v]
  else g

/-- The data bits sampled in the current frame after feeding a sequence of
samples from state `s` with the list `g` so far. -/
def frameBits (s : State) (g : List Nat) : List Nat → List Nat
  | [] => g
  | v :: vs => frameBits (printOut s v).1 (stepBits s g v) vs

/-- The number of calls from a start-edge call made in state `s` to the
stop-bit call of its frame: `9 + h + s9`, with `h` the value
`ticks_for_half_bit` returns at the edge and `s9` the sum of the nine values
`ticks_for_one_bit` returns for the frame. -/
def frameLength (s : State) : Nat :=
  9 + (ticks_for_half_bit s).1 + (oneBitCalls 9 s).1.sum

/-- Both accumulators lie in their documented ranges: `frac_accum_bit` below
`BAUD_RATE` and `frac_accum_half` below 4. -/
def accInRange (s : State) : Prop :=
  s.frac_accum_bit < BAUD_RATE ∧ s.frac_accum_half < 4

instance (s : State) : Decidable (accInRange s) := by
  unfold accInRange; infer_instance

/-- The per-frame bookkeeping agrees with the state: `bit_index` counts the
data bits sampled in the current frame, is at most 8, and `rx_byte` is their
value, least-significant bit first. -/
def FrameBitsOk (s : State) (g : List Nat) : Prop :=
  g.length = s.bit_index ∧ s.bit_index ≤ 8 ∧ s.rx_byte = lsbValue g ∧ ∀ x ∈ g, x ≤ 1

/-- The state of a run after one logic-1 sample: Idle and ready for a start
edge, both accumulators still at their initial values. -/
def armedInit : State :=
  { init with seen_idle_one := true }

/-! ## Basic facts about the generators -/

/-- The body of `ticks_for_one_bit` with its local variables substituted. -/
theorem ticks_for_one_bit_def (s : State) :
    ticks_for_one_bit s =
      if (s.frac_accum_bit + SIM_SAMPLE_HZ % BAUD_RATE) % U32 ≥ BAUD_RATE then
        ((SIM_SAMPLE_HZ / BAUD_RATE + 1) % U32,
         { s with frac_accum_bit :=
            (s.frac_accum_bit + SIM_SAMPLE_HZ % BAUD_RATE) % U32 - BAUD_RATE })
      else
        (SIM_SAMPLE_HZ / BAUD_RATE,
         { s with frac_accum_bit := (s.frac_accum_bit + SIM_SAMPLE_HZ % BAUD_RATE) % U32 }) :=
  rfl

theorem ticks_for_one_bit_fst (s : State) :
    (ticks_for_one_bit s).1 = 1562 ∨ (ticks_for_one_bit s).1 = 1563 := by
  rw [ticks_for_one_bit_def]
  split
  · right; rfl
  · left; rfl

theorem ticks_for_one_bit_snd (s : State) :
    (ticks_for_one_bit s).2 =
      { s with frac_accum_bit := (ticks_for_one_bit s).2.frac_accum_bit } := by
  rw [ticks_for_one_bit_def]
  split <;> rfl

theorem ticks_for_half_bit_fst (s : State) :
    (ticks_for_half_bit s).1 = 781 ∨ (ticks_for_half_bit s).1 = 782 := by
  unfold ticks_for_half_bit
  simp only [SIM_SAMPLE_HZ, BAUD_RATE, U32]
  split <;> simp

theorem ticks_for_half_bit_snd (s : State) :
    (ticks_for_half_bit s).2 =
      { s with frac_accum_half := (ticks_for_half_bit s).2.frac_accum_half } := by
  unfold ticks_for_half_bit
  simp only []
  split <;> rfl

/-- The C expression `(frac_accum_half + 1u) & 0x3u` is a reduction modulo 4. -/
theorem half_step_eq (h : Nat) : (((h + 1) % U32) &&& 3) % U8 = (h + 1) % 4 := by
  have := Nat.and_pow_two_sub_one_eq_mod ((h + 1) % U32) 2
  norm_num at this
  simp only [U32, U8] at *
  omega

/-- The values of `ticks_for_one_bit` depend on `frac_accum_bit` only. -/
theorem ticks_for_one_bit_congr (s r : State) (h : s.frac_accum_bit = r.frac_accum_bit) :
    (ticks_for_one_bit s).1 = (ticks_for_one_bit r).1 ∧
    (ticks_for_one_bit s).2.frac_accum_bit = (ticks_for_one_bit r).2.frac_accum_bit := by
  rw [ticks_for_one_bit_def, ticks_for_one_bit_def, h]
  split <;> exact ⟨rfl, rfl⟩

/-- The values of `ticks_for_half_bit` depend on `frac_accum_half` only. -/
theorem ticks_for_half_bit_congr (s r : State) (h : s.frac_accum_half = r.frac_accum_half) :
    (ticks_for_half_bit s).1 = (ticks_for_half_bit r).1 ∧
    (ticks_for_half_bit s).2.frac_accum_half = (ticks_for_half_bit r).2.frac_accum_half := by
  unfold ticks_for_half_bit
  rw [h]
  dsimp only
  split <;> exact ⟨rfl, rfl⟩

/-! ## Basic facts about `printOut` and `run` -/

theorem run_append (s : State) (xs ys : List Nat) :
    run s (xs ++ ys) =
      ((run (run s xs).1 ys).1, (run s xs).2 ++ (run (run s xs).1 ys).2) := by
  induction xs generalizing s with
  | nil => simp [run]
  | cons v vs ih => simp [run, ih, List.append_assoc]

theorem printOut_countdown (s : State) (v : Nat) (h1 : s.is_receiving = true)
    (h2 : 0 < s.ticks_until_sample) :
    printOut s v = ({ s with ticks_until_sample := s.ticks_until_sample - 1 }, []) := by
  simp [printOut, h1, h2]

theorem run_countdown (vs : List Nat) (s : State) (h1 : s.is_receiving = true)
    (h2 : vs.length ≤ s.ticks_until_sample) :
    run s vs = ({ s with ticks_until_sample := s.ticks_until_sample - vs.length }, []) := by
  induction vs generalizing s with
  | nil => simp [run]
  | cons v vs ih =>
    have h3 : 0 < s.ticks_until_sample := by simp at h2; omega
    simp only [List.length_cons] at h2
    simp only [run, printOut_countdown s v h1 h3, List.nil_append, List.length_cons]
    have h4 := ih { s with ticks_until_sample := s.ticks_until_sample - 1 } h1
      (by simp only []; omega)
    rw [h4]
    simp only [Prod.mk.injEq, and_true, State.mk.injEq, true_and]
    omega

/-- While receiving, the samples in front of the next sampling instant are
discarded: the run continues with the sample at the instant. -/
theorem run_to_sample (s : State) (xs : List Nat) (v : Nat) (ys : List Nat)
    (h1 : s.is_receiving = true) (h2 : xs.length = s.ticks_until_sample) :
    run s (xs ++ v :: ys) =
      ((run (printOut { s with ticks_until_sample := 0 } v).1 ys).1,
       (printOut { s with ticks_until_sample := 0 } v).2 ++
         (run (printOut { s with ticks_until_sample := 0 } v).1 ys).2) := by
  rw [run_append, run_countdown xs s h1 (by omega)]
  simp [run, h2]

theorem run_cons (s : State) (v : Nat) (vs : List Nat) :
    run s (v :: vs) =
      ((run (printOut s v).1 vs).1, (printOut s v).2 ++ (run (printOut s v).1 vs).2) :=
  rfl

theorem run_snoc (s : State) (xs : List Nat) (v : Nat) :
    run s (xs ++ [v]) =
      ((printOut (run s xs).1 v).1, (run s xs).2 ++ (printOut (run s xs).1 v).2) := by
  rw [run_append, run_cons]
  simp only [run, List.append_nil]

/-- A property kept by every call holds after any sequence of calls. -/
theorem run_invariant (P : State → Prop) (hstep : ∀ s v, P s → P (printOut s v).1)
    (xs : List Nat) (s : State) (h : P s) : P (run s xs).1 := by
  induction xs generalizing s with
  | nil => exact h
  | cons v vs ih => exact ih _ (hstep s v h)

/-! ## Fields the generators leave alone -/

section frame_lemmas
variable (s : State)

@[simp] theorem one_bit_frac_accum_half :
    (ticks_for_one_bit s).2.frac_accum_half = s.frac_accum_half := by
  rw [ticks_for_one_bit_snd]
@[simp] theorem one_bit_is_receiving :
    (ticks_for_one_bit s).2.is_receiving = s.is_receiving := by
  rw [ticks_for_one_bit_snd]
@[simp] theorem one_bit_ticks_until_sample :
    (ticks_for_one_bit s).2.ticks_until_sample = s.ticks_until_sample := by
  rw [ticks_for_one_bit_snd]
@[simp] theorem one_bit_bit_index :
    (ticks_for_one_bit s).2.bit_index = s.bit_index := by
  rw [ticks_for_one_bit_snd]
@[simp] theorem one_bit_rx_byte :
    (ticks_for_one_bit s).2.rx_byte = s.rx_byte := by
  rw [ticks_for_one_bit_snd]
@[simp] theorem one_bit_last_val :
    (ticks_for_one_bit s).2.last_val = s.last_val := by
  rw [ticks_for_one_bit_snd]
@[simp] theorem one_bit_seen_idle_one :
    (ticks_for_one_bit s).2.seen_idle_one = s.seen_idle_one := by
  rw [ticks_for_one_bit_snd]

@[simp] theorem half_bit_frac_accum_bit :
    (ticks_for_half_bit s).2.frac_accum_bit = s.frac_accum_bit := by
  rw [ticks_for_half_bit_snd]
@[simp] theorem half_bit_is_receiving :
    (ticks_for_half_bit s).2.is_receiving = s.is_receiving := by
  rw [ticks_for_half_bit_snd]
@[simp] theorem half_bit_ticks_until_sample :
    (ticks_for_half_bit s).2.ticks_until_sample = s.ticks_until_sample := by
  rw [ticks_for_half_bit_snd]
@[simp] theorem half_bit_bit_index :
    (ticks_for_half_bit s).2.bit_index = s.bit_index := by
  rw [ticks_for_half_bit_snd]
@[simp] theorem half_bit_rx_byte :
    (ticks_for_half_bit s).2.rx_byte = s.rx_byte := by
  rw [ticks_for_half_bit_snd]
@[simp] theorem half_bit_last_val :
    (ticks_for_half_bit s).2.last_val = s.last_val := by
  rw [ticks_for_half_bit_snd]
@[simp] theorem half_bit_seen_idle_one :
    (ticks_for_half_bit s).2.seen_idle_one = s.seen_idle_one := by
  rw [ticks_for_half_bit_snd]

end frame_lemmas

/-! ## Decoding one frame -/

theorem two_pow_le_128 (k : Nat) (hk : k < 8) : 2 ^ k ≤ 128 := by
  interval_cases k <;> norm_num

theorem rx_byte_set (b k : Nat) (hk : k < 8) (h : bitOf b k ≠ 0) :
    (b % 2 ^ k ||| ((1 <<< k) % U32) % U8) % U8 = b % 2 ^ (k + 1) := by
  have h1 : bitOf b k = 1 := by unfold bitOf at *; omega
  have h2 := two_pow_le_128 k hk
  have h3 : b % 2 ^ k < 2 ^ k := Nat.mod_lt _ (by positivity)
  have h4 : (1 <<< k) % U32 % U8 = 2 ^ k := by
    rw [Nat.one_shiftLeft]; simp only [U32, U8]; omega
  have h5 : b % 2 ^ (k + 1) = b % 2 ^ k + 2 ^ k * 1 := by
    rw [Nat.mod_pow_succ]; unfold bitOf at h1; rw [h1]
  have h6 := Nat.mul_add_lt_is_or h3 1
  rw [h4, h5, Nat.or_comm]
  simp only [Nat.mul_one] at h6 ⊢
  rw [← h6]
  simp only [U8]; omega

theorem rx_byte_keep (b k : Nat) (h : bitOf b k = 0) : b % 2 ^ k = b % 2 ^ (k + 1) := by
  unfold bitOf at h
  rw [Nat.mod_pow_succ, h]; simp

theorem printOut_data (s : State) (v : Nat) (h1 : s.is_receiving = true)
    (h2 : s.ticks_until_sample = 0) (h3 : s.bit_index < 8) :
    printOut s v =
      ({ (ticks_for_one_bit
            { s with
              rx_byte := if v ≠ 0 then
                  (s.rx_byte ||| ((1 <<< s.bit_index) % U32) % U8) % U8 else s.rx_byte,
              bit_index := (s.bit_index + 1) % U8 }).2 with
          ticks_until_sample := (ticks_for_one_bit
            { s with
              rx_byte := if v ≠ 0 then
                  (s.rx_byte ||| ((1 <<< s.bit_index) % U32) % U8) % U8 else s.rx_byte,
              bit_index := (s.bit_index + 1) % U8 }).1 }, []) := by
  unfold printOut
  rw [if_neg (by simp [h1]), if_neg (by omega), if_pos h3]
  by_cases hv : v = 0
  · simp only [hv, ne_eq, not_true_eq_false, if_false]
  · simp only [hv, ne_eq, not_false_eq_true, if_true]

/-- A data-bit sampling instant, field by field, with the value `w` returned by
the generator call named. -/
theorem printOut_data_gen (s : State) (v : Nat) (w : Nat × State)
    (h1 : s.is_receiving = true) (h2 : s.ticks_until_sample = 0) (h3 : s.bit_index < 8)
    (hw : ticks_for_one_bit
        { s with
          rx_byte := if v ≠ 0 then
              (s.rx_byte ||| ((1 <<< s.bit_index) % U32) % U8) % U8 else s.rx_byte,
          bit_index := (s.bit_index + 1) % U8 } = w) :
    (printOut s v).2 = [] ∧
    (printOut s v).1.is_receiving = w.2.is_receiving ∧
    (printOut s v).1.bit_index = w.2.bit_index ∧
    (printOut s v).1.rx_byte = w.2.rx_byte ∧
    (printOut s v).1.ticks_until_sample = w.1 ∧
    (printOut s v).1.frac_accum_bit = w.2.frac_accum_bit ∧
    (printOut s v).1.frac_accum_half = w.2.frac_accum_half ∧
    (printOut s v).1.last_val = w.2.last_val ∧
    (printOut s v).1.seen_idle_one = w.2.seen_idle_one := by
  rw [printOut_data s v h1 h2 h3, hw]
  exact ⟨rfl, rfl, rfl, rfl, rfl, rfl, rfl, rfl, rfl⟩

/-- A data-bit sampling instant, field by field. -/
theorem printOut_data_state (s : State) (v : Nat) (h1 : s.is_receiving = true)
    (h2 : s.ticks_until_sample = 0) (h3 : s.bit_index < 8) :
    (printOut s v).2 = [] ∧
    (printOut s v).1.is_receiving = true ∧
    (printOut s v).1.bit_index = (s.bit_index + 1) % U8 ∧
    (printOut s v).1.rx_byte =
      (if v ≠ 0 then (s.rx_byte ||| ((1 <<< s.bit_index) % U32) % U8) % U8
        else s.rx_byte) ∧
    (printOut s v).1.ticks_until_sample = (ticks_for_one_bit s).1 ∧
    (printOut s v).1.frac_accum_bit = (ticks_for_one_bit s).2.frac_accum_bit ∧
    (printOut s v).1.frac_accum_half = s.frac_accum_half ∧
    (printOut s v).1.last_val = s.last_val ∧
    (printOut s v).1.seen_idle_one = s.seen_idle_one := by
  obtain ⟨a0, a1, a2, a3, a4, a5, a6, a7, a8⟩ := printOut_data_gen s v _ h1 h2 h3 rfl
  obtain ⟨g1, g2⟩ := ticks_for_one_bit_congr
    { s with
      rx_byte := if v ≠ 0 then
          (s.rx_byte ||| ((1 <<< s.bit_index) % U32) % U8) % U8 else s.rx_byte,
      bit_index := (s.bit_index + 1) % U8 } s rfl
  rw [one_bit_is_receiving] at a1
  rw [one_bit_bit_index] at a2
  rw [one_bit_rx_byte] at a3
  rw [g1] at a4
  rw [g2] at a5
  rw [one_bit_frac_accum_half] at a6
  rw [one_bit_last_val] at a7
  rw [one_bit_seen_idle_one] at a8
  exact ⟨a0, a1.trans h1, a2, a3, a4, a5, a6, a7, a8⟩

/-- The start-edge call, field by field, with the values `wh` and `wt`
returned by the two generator calls named. -/
theorem printOut_edge_gen (s : State) (wh wt : Nat × State) (h1 : s.is_receiving = false)
    (h2 : s.last_val = 1) (h3 : s.seen_idle_one = true)
    (hh : ticks_for_half_bit { s with is_receiving := true, bit_index := 0, rx_byte := 0 } = wh)
    (ht : ticks_for_one_bit wh.2 = wt) :
    (printOut s 0).2 = [] ∧
    (printOut s 0).1.is_receiving = wt.2.is_receiving ∧
    (printOut s 0).1.bit_index = wt.2.bit_index ∧
    (printOut s 0).1.rx_byte = wt.2.rx_byte ∧
    (printOut s 0).1.ticks_until_sample = (wh.1 + wt.1) % U32 ∧
    (printOut s 0).1.frac_accum_bit = wt.2.frac_accum_bit ∧
    (printOut s 0).1.frac_accum_half = wt.2.frac_accum_half ∧
    (printOut s 0).1.last_val = 0 ∧
    (printOut s 0).1.seen_idle_one = wt.2.seen_idle_one := by
  unfold printOut
  rw [if_pos h1]
  dsimp only
  rewrite [if_neg (by decide : ¬ (0 : Nat) = 1), if_pos ⟨h3, h2, rfl⟩, hh, ht]
  exact ⟨rfl, rfl, rfl, rfl, rfl, rfl, rfl, rfl, rfl⟩

/-- The start-edge call, field by field. -/
theorem printOut_edge_state (s : State) (h1 : s.is_receiving = false)
    (h2 : s.last_val = 1) (h3 : s.seen_idle_one = true) :
    (printOut s 0).2 = [] ∧
    (printOut s 0).1.is_receiving = true ∧
    (printOut s 0).1.bit_index = 0 ∧
    (printOut s 0).1.rx_byte = 0 ∧
    (printOut s 0).1.ticks_until_sample =
      ((ticks_for_half_bit s).1 + (ticks_for_one_bit s).1) % U32 ∧
    (printOut s 0).1.frac_accum_bit = (ticks_for_one_bit s).2.frac_accum_bit ∧
    (printOut s 0).1.frac_accum_half = (ticks_for_half_bit s).2.frac_accum_half ∧
    (printOut s 0).1.last_val = 0 ∧
    (printOut s 0).1.seen_idle_one = true := by
  obtain ⟨a0, a1, a2, a3, a4, a5, a6, a7, a8⟩ := printOut_edge_gen s _ _ h1 h2 h3 rfl rfl
  obtain ⟨k1, k2⟩ := ticks_for_half_bit_congr
    { s with is_receiving := true, bit_index := 0, rx_byte := 0 } s rfl
  obtain ⟨g1, g2⟩ := ticks_for_one_bit_congr
    (ticks_for_half_bit { s with is_receiving := true, bit_index := 0, rx_byte := 0 }).2 s
    (half_bit_frac_accum_bit _)
  rw [one_bit_is_receiving, half_bit_is_receiving] at a1
  rw [one_bit_bit_index, half_bit_bit_index] at a2
  rw [one_bit_rx_byte, half_bit_rx_byte] at a3
  rw [k1, g1] at a4
  rw [g2] at a5
  rw [one_bit_frac_accum_half, k2] at a6
  rw [one_bit_seen_idle_one, half_bit_seen_idle_one] at a8
  exact ⟨a0, a1, a2, a3, a4, a5, a6, a7, a8.trans h3⟩

/-- A data-bit sampling instant inside a frame for `b`. -/
theorem midFrame_sample (b k : Nat) (s : State) (hk : k < 8)
    (h1 : s.is_receiving = true) (h2 : s.bit_index = k) (h3 : s.rx_byte = b % 2 ^ k)
    (h4 : s.seen_idle_one = true) (h5 : s.ticks_until_sample = 0) :
    (printOut s (bitOf b k)).2 = [] ∧
    (printOut s (bitOf b k)).1.is_receiving = true ∧
    (printOut s (bitOf b k)).1.bit_index = k + 1 ∧
    (printOut s (bitOf b k)).1.rx_byte = b % 2 ^ (k + 1) ∧
    ((printOut s (bitOf b k)).1.ticks_until_sample = 1562 ∨
      (printOut s (bitOf b k)).1.ticks_until_sample = 1563) ∧
    (printOut s (bitOf b k)).1.seen_idle_one = true := by
  have hk3 : (k + 1) % U8 = k + 1 := by simp only [U8]; omega
  obtain ⟨a0, a1, a2, a3, a4, -, -, -, a8⟩ := printOut_data_state s (bitOf b k) h1 h5 (by omega)
  refine ⟨a0, a1, ?_, ?_, ?_, a8.trans h4⟩
  · rw [a2, h2, hk3]
  · rw [a3, h2, h3]
    by_cases hv : bitOf b k = 0
    · rw [if_neg (by simp [hv])]; exact rx_byte_keep b k hv
    · rw [if_pos hv]; exact rx_byte_set b k hk hv
  · rw [a4]; exact ticks_for_one_bit_fst s

/-- Feeding one data-bit period moves the frame invariant from bit `k` to
bit `k + 1` without output. -/
theorem midFrame_step (b k p : Nat) (s : State) (hk : k < 8)
    (hp : p = 1562 ∨ p = 1563) (h : MidFrame b k s) :
    (run s (List.replicate p (bitOf b k))).2 = [] ∧
    MidFrame b (k + 1) (run s (List.replicate p (bitOf b k))).1 := by
  obtain ⟨h1, h2, h3, h4, h5⟩ := h
  have hsplit : List.replicate p (bitOf b k) =
      List.replicate s.ticks_until_sample (bitOf b k) ++
        bitOf b k :: List.replicate (p - s.ticks_until_sample - 1) (bitOf b k) := by
    rw [← List.replicate_succ, ← List.replicate_add]
    congr 1; omega
  rw [hsplit, run_to_sample s _ _ _ h1 (by simp)]
  obtain ⟨q1, q2, q3, q4, q5, q6⟩ :=
    midFrame_sample b k { s with ticks_until_sample := 0 } hk h1 h2 h3 h5 rfl
  rw [run_countdown _ _ q2 (by simp only [List.length_replicate]; omega)]
  refine ⟨by simp [q1], q2, q3, q4, ?_, q6⟩
  simp only [List.length_replicate]
  omega

/-- Feeding the first `k` data-bit periods moves the frame invariant from
bit 0 to bit `k` without output. -/
theorem run_dataBits (b : Nat) (p : Nat → Nat) (hp : periodsOk p) (k : Nat) (hk : k ≤ 8)
    (s : State) (h : MidFrame b 0 s) :
    (run s (dataBits b p k)).2 = [] ∧ MidFrame b k (run s (dataBits b p k)).1 := by
  induction k with
  | zero => exact ⟨rfl, h⟩
  | succ k ih =>
    obtain ⟨i1, i2⟩ := ih (by omega)
    obtain ⟨j1, j2⟩ := midFrame_step b k (p (k + 1)) _ (by omega) (hp (k + 1) (by omega)) i2
    simp only [dataBits, run_append, i1, j1, List.append_nil, true_and]
    exact j2

/-! ### Idle line -/

theorem printOut_idle_one (s : State) (h : s.is_receiving = false) :
    printOut s 1 = ({ s with seen_idle_one := true, last_val := 1 }, []) := by
  simp [printOut, h]

theorem printOut_idle_zero (s : State) (h : s.is_receiving = false)
    (h2 : ¬ (s.seen_idle_one = true ∧ s.last_val = 1)) :
    printOut s 0 = ({ s with last_val := 0 }, []) := by
  unfold printOut
  rw [if_pos h]
  simp only [zero_ne_one, if_false, and_true]
  rw [if_neg h2]

theorem run_idle_ones (n : Nat) (s : State) (h : s.is_receiving = false) :
    run s (List.replicate (n + 1) 1) = ({ s with seen_idle_one := true, last_val := 1 }, []) := by
  induction n generalizing s with
  | zero => simp [run, printOut_idle_one s h]
  | succ n ih =>
    rw [List.replicate_succ, run, printOut_idle_one s h]
    simp only [List.nil_append]
    have h3 := ih { s with seen_idle_one := true, last_val := 1 } h
    rw [h3]

theorem run_idle_zeros (n : Nat) (s : State) (h : s.is_receiving = false)
    (h2 : s.last_val = 0) :
    run s (List.replicate n 0) = (s, []) := by
  induction n with
  | zero => rfl
  | succ n ih =>
    rw [List.replicate_succ, run, printOut_idle_zero s h (by omega)]
    simp only [List.nil_append]
    have h3 : { s with last_val := 0 } = s := by rw [← h2]
    rw [h3, ih]

/-! ### Start edge and stop bit -/

/-- From an armed idle state the start-bit period puts the machine in front of
data bit 0. -/
theorem run_start (b p : Nat) (s : State) (hp : p = 1562 ∨ p = 1563) (h : Armed s) :
    (run s (List.replicate p 0)).2 = [] ∧ MidFrame b 0 (run s (List.replicate p 0)).1 := by
  obtain ⟨h1, h2, h3⟩ := h
  obtain ⟨q, rfl⟩ : ∃ q, p = q + 1 := ⟨p - 1, by omega⟩
  obtain ⟨a0, a1, a2, a3, a4, -, -, -, a8⟩ := printOut_edge_state s h1 h2 h3
  have b1 := ticks_for_half_bit_fst s
  have b2 := ticks_for_one_bit_fst s
  have hlen : (List.replicate q 0).length ≤ (printOut s 0).1.ticks_until_sample := by
    rw [List.length_replicate, a4]; simp only [U32]; omega
  rw [List.replicate_succ, run_cons, a0, run_countdown _ _ a1 hlen]
  refine ⟨rfl, a1, a2, ?_, ?_, a8⟩
  · rw [a3, pow_zero, Nat.mod_one]
  · show (printOut s 0).1.ticks_until_sample - (List.replicate q 0).length ≤ 784 + 2 * 0
    rw [List.length_replicate, a4]; simp only [U32]; omega

theorem printOut_stop (s : State) (v : Nat) (h1 : s.is_receiving = true)
    (h2 : s.ticks_until_sample = 0) (h3 : ¬ s.bit_index < 8) :
    printOut s v =
      ({ s with is_receiving := false, last_val := v },
       if v = 1 then [Output.char s.rx_byte] else [Output.stoppbitFalsch]) := by
  unfold printOut
  rw [if_neg (by simp [h1]), if_neg (by omega), if_neg h3]

/-- The tenth period of a frame: the stop-bit instant falls inside it, prints
the byte (level 1) or the diagnostic (level 0), and the rest of the period
leaves the machine idle. -/
theorem run_stop (b p stop : Nat) (s : State) (hp : p = 1562 ∨ p = 1563)
    (hstop : stop = 0 ∨ stop = 1) (h : MidFrame b 8 s) :
    run s (List.replicate p stop) =
      ({ s with ticks_until_sample := 0, is_receiving := false, last_val := stop },
       if stop = 1 then [Output.char (b % 256)] else [Output.stoppbitFalsch]) := by
  obtain ⟨h1, h2, h3, h4, h5⟩ := h
  obtain ⟨r, hr⟩ : ∃ r, p = s.ticks_until_sample + 1 + (r + 1) :=
    ⟨p - s.ticks_until_sample - 2, by omega⟩
  have hsplit : List.replicate p stop =
      List.replicate s.ticks_until_sample stop ++
        stop :: List.replicate (r + 1) stop := by
    rw [hr, List.replicate_add, List.replicate_add, List.append_assoc]
    rfl
  rw [hsplit, run_to_sample s _ _ _ h1 (by simp)]
  rw [printOut_stop { s with ticks_until_sample := 0 } stop h1 rfl
    (by simp only [h2]; omega)]
  dsimp only
  rw [h3]
  rcases hstop with rfl | rfl
  · rw [run_idle_zeros _ _ rfl rfl]
    simp
  · rw [run_idle_ones _ _ rfl]
    simp [h5]

/-- Decoding one frame: from an armed idle state, a correctly timed frame for
the byte `b` prints exactly `b` when its tenth period is high and exactly the
diagnostic when it is low, and leaves the machine idle. -/
theorem run_frame (b : Nat) (p : Nat → Nat) (stop : Nat) (s : State) (hb : b < 256)
    (hp : periodsOk p) (hstop : stop = 0 ∨ stop = 1) (h : Armed s) :
    (run s (frame b p stop)).2 =
        (if stop = 1 then [Output.char b] else [Output.stoppbitFalsch]) ∧
    (run s (frame b p stop)).1.is_receiving = false ∧
    (run s (frame b p stop)).1.last_val = stop ∧
    (run s (frame b p stop)).1.seen_idle_one = true := by
  obtain ⟨a1, a2⟩ := run_start b (p 0) s (hp 0 (by omega)) h
  obtain ⟨b1, b2⟩ := run_dataBits b p hp 8 (le_refl 8) _ a2
  have c := run_stop b (p 9) stop _ (hp 9 (by omega)) hstop b2
  have hb2 : b % 256 = b := Nat.mod_eq_of_lt hb
  unfold frame
  rw [run_append, run_append, c, a1, b1, hb2]
  exact ⟨by simp, rfl, rfl, b2.2.2.2.2⟩

/-- After at least one logic-1 sample an idle machine is armed. -/
theorem armed_after_ones (n : Nat) (s : State) (hn : 1 ≤ n) (h : s.is_receiving = false) :
    (run s (List.replicate n 1)).2 = [] ∧ Armed (run s (List.replicate n 1)).1 := by
  obtain ⟨m, rfl⟩ : ∃ m, n = m + 1 := ⟨n - 1, by omega⟩
  rw [run_idle_ones m s h]
  exact ⟨rfl, h, rfl, rfl⟩

/-! ## Round trip, bad stop bit, back-to-back frames -/

/-- C1 (round-trip decode): from the initial state, at least one logic-1 idle
sample followed by a frame for the byte `b` (low start bit, the eight bits of
`b` least-significant first, high stop bit, each of the ten periods held for
1562 or 1563 samples in any mix) prints exactly the one character `b`, hence no
diagnostic line, and leaves the machine Idle. -/
theorem roundtrip_decode (b n : Nat) (p : Nat → Nat) (hb : b < 256) (hn : 1 ≤ n)
    (hp : periodsOk p) :
    (run init (List.replicate n 1 ++ frame b p 1)).2 = [Output.char b] ∧
    stdoutBytes (run init (List.replicate n 1 ++ frame b p 1)).2 = [b] ∧
    (run init (List.replicate n 1 ++ frame b p 1)).1.is_receiving = false := by
  obtain ⟨a1, a2⟩ := armed_after_ones n init hn rfl
  obtain ⟨f1, f2, -, -⟩ := run_frame b p 1 _ hb hp (Or.inr rfl) a2
  rw [run_append, a1, f1]
  exact ⟨rfl, rfl, f2⟩

/-- Witness for C1: the byte 0x41 ('A') after one idle sample, every period
1562 samples long. -/
theorem roundtrip_decode_witness :
    (0x41 < 256 ∧ 1 ≤ 1 ∧ periodsOk (fun _ => 1562)) ∧
    (run init (List.replicate 1 1 ++ frame 0x41 (fun _ => 1562) 1)).2 = [Output.char 0x41] ∧
    stdoutBytes (run init (List.replicate 1 1 ++ frame 0x41 (fun _ => 1562) 1)).2 = [0x41] ∧
    (run init (List.replicate 1 1 ++ frame 0x41 (fun _ => 1562) 1)).1.is_receiving = false :=
  ⟨⟨by decide, by decide, fun _ _ => Or.inl rfl⟩,
   roundtrip_decode 0x41 1 (fun _ => 1562) (by decide) (by decide) (fun _ _ => Or.inl rfl)⟩

/-- C2 (bad stop bit): from the initial state, at least one logic-1 sample and a
correctly timed frame for `b` whose stop-bit period is held at logic-0 print
exactly one `Stoppbit falsch!` diagnostic and no character and leave the
machine Idle; a following valid frame for any byte `c`, preceded by at least one
logic-1 sample, is then decoded to exactly `c`, so the total output is the
diagnostic followed by `c`. -/
theorem bad_stop_bit (b c n m : Nat) (p q : Nat → Nat) (hb : b < 256) (hc : c < 256)
    (hn : 1 ≤ n) (hm : 1 ≤ m) (hp : periodsOk p) (hq : periodsOk q) :
    (run init (List.replicate n 1 ++ frame b p 0)).2 = [Output.stoppbitFalsch] ∧
    (run init (List.replicate n 1 ++ frame b p 0)).1.is_receiving = false ∧
    (run (run init (List.replicate n 1 ++ frame b p 0)).1
        (List.replicate m 1 ++ frame c q 1)).2 = [Output.char c] ∧
    (run init ((List.replicate n 1 ++ frame b p 0) ++
        (List.replicate m 1 ++ frame c q 1))).2 = [Output.stoppbitFalsch, Output.char c] ∧
    (run init ((List.replicate n 1 ++ frame b p 0) ++
        (List.replicate m 1 ++ frame c q 1))).1.is_receiving = false := by
  obtain ⟨a1, a2⟩ := armed_after_ones n init hn rfl
  obtain ⟨f1, f2, -, -⟩ := run_frame b p 0 _ hb hp (Or.inl rfl) a2
  have e1 : (run init (List.replicate n 1 ++ frame b p 0)).1 =
      (run (run init (List.replicate n 1)).1 (frame b p 0)).1 := by rw [run_append]
  have e2 : (run init (List.replicate n 1 ++ frame b p 0)).2 = [Output.stoppbitFalsch] := by
    rw [run_append, a1, f1]; rfl
  obtain ⟨g1, g2⟩ := armed_after_ones m
    (run init (List.replicate n 1 ++ frame b p 0)).1 hm (by rw [e1]; exact f2)
  obtain ⟨k1, k2, -, -⟩ := run_frame c q 1 _ hc hq (Or.inr rfl) g2
  have e3 : (run (run init (List.replicate n 1 ++ frame b p 0)).1
      (List.replicate m 1 ++ frame c q 1)).2 = [Output.char c] := by
    rw [run_append, g1, k1]; rfl
  refine ⟨e2, by rw [e1]; exact f2, e3, ?_, ?_⟩
  · rw [run_append, e2, e3]; rfl
  · rw [run_append]
    dsimp only
    rw [run_append]
    exact k2

/-- Witness for C2: a bad frame for 0x41 followed by a good frame for 0x42. -/
theorem bad_stop_bit_witness :
    (run init (List.replicate 1 1 ++ frame 0x41 (fun _ => 1562) 0)).2 =
      [Output.stoppbitFalsch] ∧
    (run init (List.replicate 1 1 ++ frame 0x41 (fun _ => 1562) 0)).1.is_receiving = false ∧
    (run (run init (List.replicate 1 1 ++ frame 0x41 (fun _ => 1562) 0)).1
        (List.replicate 1 1 ++ frame 0x42 (fun _ => 1563) 1)).2 = [Output.char 0x42] ∧
    (run init ((List.replicate 1 1 ++ frame 0x41 (fun _ => 1562) 0) ++
        (List.replicate 1 1 ++ frame 0x42 (fun _ => 1563) 1))).2 =
      [Output.stoppbitFalsch, Output.char 0x42] ∧
    (run init ((List.replicate 1 1 ++ frame 0x41 (fun _ => 1562) 0) ++
        (List.replicate 1 1 ++ frame 0x42 (fun _ => 1563) 1))).1.is_receiving = false :=
  bad_stop_bit 0x41 0x42 1 1 (fun _ => 1562) (fun _ => 1563) (by decide) (by decide)
    (by decide) (by decide) (fun _ _ => Or.inl rfl) (fun _ _ => Or.inr rfl)

/-- C3 (multi-byte stream): from the initial state, at least one logic-1 sample
followed by two valid frames back to back (the second start bit beginning on the
sample right after the first stop-bit period, every period 1562 or 1563 samples)
prints exactly the two characters `b1` then `b2`, with no diagnostic line. -/
theorem multi_byte_stream (b1 b2 n : Nat) (p q : Nat → Nat) (hb1 : b1 < 256)
    (hb2 : b2 < 256) (hn : 1 ≤ n) (hp : periodsOk p) (hq : periodsOk q) :
    (run init (List.replicate n 1 ++ frame b1 p 1 ++ frame b2 q 1)).2 =
      [Output.char b1, Output.char b2] ∧
    stdoutBytes (run init (List.replicate n 1 ++ frame b1 p 1 ++ frame b2 q 1)).2 =
      [b1, b2] := by
  obtain ⟨a1, a2⟩ := armed_after_ones n init hn rfl
  obtain ⟨f1, f2, f3, f4⟩ := run_frame b1 p 1 _ hb1 hp (Or.inr rfl) a2
  obtain ⟨g1, -, -, -⟩ := run_frame b2 q 1 _ hb2 hq (Or.inr rfl) ⟨f2, f3, f4⟩
  have e : (run init (List.replicate n 1 ++ frame b1 p 1 ++ frame b2 q 1)).2 =
      [Output.char b1, Output.char b2] := by
    rw [run_append, run_append, a1, f1, g1]; rfl
  rw [e]
  exact ⟨rfl, rfl⟩

/-- Witness for C3: the bytes 0x41 and 0x42 after one idle sample. -/
theorem multi_byte_stream_witness :
    (run init (List.replicate 1 1 ++ frame 0x41 (fun _ => 1562) 1 ++
        frame 0x42 (fun _ => 1563) 1)).2 = [Output.char 0x41, Output.char 0x42] ∧
    stdoutBytes (run init (List.replicate 1 1 ++ frame 0x41 (fun _ => 1562) 1 ++
        frame 0x42 (fun _ => 1563) 1)).2 = [0x41, 0x42] :=
  multi_byte_stream 0x41 0x42 1 (fun _ => 1562) (fun _ => 1563) (by decide) (by decide)
    (by decide) (fun _ _ => Or.inl rfl) (fun _ _ => Or.inr rfl)

/-! ## Full-bit generator: exact behaviour -/

theorem ticks_for_one_bit_low (s : State) (h : s.frac_accum_bit < 57600) :
    ticks_for_one_bit s = (1562, { s with frac_accum_bit := s.frac_accum_bit + 57600 }) := by
  unfold ticks_for_one_bit
  simp only [SIM_SAMPLE_HZ, BAUD_RATE, U32]
  norm_num
  have e : (s.frac_accum_bit + 57600) % 4294967296 = s.frac_accum_bit + 57600 := by omega
  rw [e, if_neg (by omega)]

theorem ticks_for_one_bit_high (s : State) (h1 : 57600 ≤ s.frac_accum_bit)
    (h2 : s.frac_accum_bit < 115200) :
    ticks_for_one_bit s = (1563, { s with frac_accum_bit := s.frac_accum_bit - 57600 }) := by
  unfold ticks_for_one_bit
  simp only [SIM_SAMPLE_HZ, BAUD_RATE, U32]
  norm_num
  have e : (s.frac_accum_bit + 57600) % 4294967296 = s.frac_accum_bit + 57600 := by omega
  rw [e, if_pos (by omega)]
  simp only [Prod.mk.injEq, State.mk.injEq, true_and, and_true]
  omega

/-- One more call in front of `n` calls. -/
theorem oneBitCalls_succ (n : Nat) (s : State) :
    oneBitCalls (n + 1) s =
      ((ticks_for_one_bit s).1 :: (oneBitCalls n (ticks_for_one_bit s).2).1,
       (oneBitCalls n (ticks_for_one_bit s).2).2) :=
  rfl

theorem oneBitCalls_add (m n : Nat) (s : State) :
    oneBitCalls (m + n) s =
      ((oneBitCalls m s).1 ++ (oneBitCalls n (oneBitCalls m s).2).1,
       (oneBitCalls n (oneBitCalls m s).2).2) := by
  induction m generalizing s with
  | zero => simp [oneBitCalls]
  | succ m ih =>
    rw [Nat.add_right_comm, oneBitCalls_succ (m + n) s, oneBitCalls_succ m s, ih]
    rfl

theorem oneBitCalls_add_fst (m n : Nat) (s : State) :
    (oneBitCalls (m + n) s).1 = (oneBitCalls m s).1 ++ (oneBitCalls n (oneBitCalls m s).2).1 := by
  rw [oneBitCalls_add]

theorem oneBitCalls_add_snd (m n : Nat) (s : State) :
    (oneBitCalls (m + n) s).2 = (oneBitCalls n (oneBitCalls m s).2).2 := by
  rw [oneBitCalls_add]

theorem oneBitCalls_one_sum (s : State) (w : Nat × State) (hw : ticks_for_one_bit s = w) :
    (oneBitCalls 1 s).1.sum = w.1 := by
  rw [oneBitCalls_succ 0 s, hw]
  exact Nat.add_zero _

theorem oneBitCalls_length (n : Nat) (s : State) : (oneBitCalls n s).1.length = n := by
  induction n generalizing s with
  | zero => rfl
  | succ n ih => simp only [oneBitCalls, List.length_cons, ih]

theorem oneBitCalls_two_eq (s : State) (w1 w2 : Nat × State)
    (h1 : ticks_for_one_bit s = w1) (h2 : ticks_for_one_bit w1.2 = w2) :
    oneBitCalls 2 s = ([w1.1, w2.1], w2.2) := by
  rw [oneBitCalls_succ 1 s, h1, oneBitCalls_succ 0 w1.2, h2]
  rfl

/-- Two consecutive calls return 1562 and 1563 in some order and restore the
accumulator. -/
theorem oneBitCalls_two (s : State) (h : s.frac_accum_bit < BAUD_RATE) :
    (oneBitCalls 2 s).1.sum = 3125 ∧ (oneBitCalls 2 s).2 = s := by
  simp only [BAUD_RATE] at h
  by_cases hl : s.frac_accum_bit < 57600
  · rw [oneBitCalls_two_eq s _ _ (ticks_for_one_bit_low s hl)
      (ticks_for_one_bit_high _ (by dsimp only; omega) (by dsimp only; omega))]
    refine ⟨rfl, ?_⟩
    cases s
    simp only [State.mk.injEq, true_and, and_true]
    omega
  · have hl1 : 57600 ≤ s.frac_accum_bit := by omega
    rw [oneBitCalls_two_eq s _ _ (ticks_for_one_bit_high s hl1 h)
      (ticks_for_one_bit_low _ (by dsimp only; omega))]
    refine ⟨rfl, ?_⟩
    cases s
    dsimp only at hl1
    simp only [State.mk.injEq, true_and, and_true]
    omega

theorem oneBitCalls_even (n : Nat) (s : State) (h : s.frac_accum_bit < BAUD_RATE) :
    (oneBitCalls (2 * n) s).1.sum = 3125 * n ∧ (oneBitCalls (2 * n) s).2 = s := by
  induction n with
  | zero => exact ⟨rfl, rfl⟩
  | succ n ih =>
    obtain ⟨i1, i2⟩ := ih
    obtain ⟨t1, t2⟩ := oneBitCalls_two s h
    have e : 2 * (n + 1) = 2 * n + 2 := by ring
    rw [e, oneBitCalls_add_fst, oneBitCalls_add_snd, i2, List.sum_append, i1, t1, t2]
    exact ⟨by ring, rfl⟩

/-- C4 (average timing accuracy): from any accumulator value below `BAUD_RATE`,
`BAUD_RATE` consecutive calls of `ticks_for_one_bit` return values whose sum is
`SIM_SAMPLE_HZ / BAUD_RATE * BAUD_RATE + SIM_SAMPLE_HZ % BAUD_RATE = 180000000`
and leave the accumulator (indeed the whole state) where it started; hence
`k * BAUD_RATE` consecutive calls sum to `k * 180000000`. -/
theorem average_timing_accuracy (s : State) (h : s.frac_accum_bit < BAUD_RATE) :
    (oneBitCalls BAUD_RATE s).1.sum =
        SIM_SAMPLE_HZ / BAUD_RATE * BAUD_RATE + SIM_SAMPLE_HZ % BAUD_RATE ∧
    SIM_SAMPLE_HZ / BAUD_RATE * BAUD_RATE + SIM_SAMPLE_HZ % BAUD_RATE = 180000000 ∧
    (oneBitCalls BAUD_RATE s).1.length = BAUD_RATE ∧
    (oneBitCalls BAUD_RATE s).2 = s ∧
    ∀ k, (oneBitCalls (k * BAUD_RATE) s).1.sum = k * 180000000 ∧
         (oneBitCalls (k * BAUD_RATE) s).2 = s := by
  have hk : ∀ k, (oneBitCalls (k * BAUD_RATE) s).1.sum = k * 180000000 ∧
      (oneBitCalls (k * BAUD_RATE) s).2 = s := by
    intro k
    have e : k * BAUD_RATE = 2 * (k * 57600) := by simp only [BAUD_RATE]; omega
    obtain ⟨a1, a2⟩ := oneBitCalls_even (k * 57600) s h
    rw [e, a1, a2]
    exact ⟨by omega, rfl⟩
  have h1 := hk 1
  rw [Nat.one_mul] at h1
  have hc : SIM_SAMPLE_HZ / BAUD_RATE * BAUD_RATE + SIM_SAMPLE_HZ % BAUD_RATE = 180000000 := by
    simp only [SIM_SAMPLE_HZ, BAUD_RATE]
  exact ⟨by rw [hc, h1.1], hc, oneBitCalls_length _ s, h1.2, hk⟩

/-- Witness for C4: the initial state. -/
theorem average_timing_accuracy_witness :
    init.frac_accum_bit < BAUD_RATE ∧
    (oneBitCalls BAUD_RATE init).1.sum = 180000000 ∧
    (oneBitCalls BAUD_RATE init).2 = init :=
  ⟨by decide,
   ((average_timing_accuracy init (by decide)).1).trans
     (average_timing_accuracy init (by decide)).2.1,
   (average_timing_accuracy init (by decide)).2.2.2.1⟩

/-- C10 (no drift beyond one unit): with `frac_accum_bit = 0`, for every `n`
the sum of the first `n` values returned by `ticks_for_one_bit` is
`floor(n * 180000000 / 115200) = floor(n * 3125 / 2)`; so the cumulative tick
count never exceeds the exact value `n * R / B` and falls short of it by less
than one tick. -/
theorem no_drift_beyond_one_unit (s : State) (n : Nat) (h : s.frac_accum_bit = 0) :
    (oneBitCalls n s).1.sum = n * SIM_SAMPLE_HZ / BAUD_RATE ∧
    (oneBitCalls n s).1.sum = n * 3125 / 2 ∧
    (oneBitCalls n s).1.sum * BAUD_RATE ≤ n * SIM_SAMPLE_HZ ∧
    n * SIM_SAMPLE_HZ < ((oneBitCalls n s).1.sum + 1) * BAUD_RATE := by
  have hs : (oneBitCalls n s).1.sum = n * 3125 / 2 := by
    obtain ⟨a1, a2⟩ := oneBitCalls_even (n / 2) s (by rw [h]; decide)
    have e : n = 2 * (n / 2) + n % 2 := by omega
    rw [e, oneBitCalls_add, a2]
    simp only [List.sum_append, a1]
    rcases Nat.mod_two_eq_zero_or_one n with h0 | h1
    · rw [h0]; simp only [oneBitCalls, List.sum_nil]; omega
    · rw [h1]
      simp only [oneBitCalls, ticks_for_one_bit_low s (by omega), List.sum_cons, List.sum_nil]
      omega
  rw [hs]
  simp only [SIM_SAMPLE_HZ, BAUD_RATE]
  refine ⟨?_, trivial, ?_, ?_⟩ <;> omega

/-- Witness for C10: seven calls from the initial state. -/
theorem no_drift_beyond_one_unit_witness :
    init.frac_accum_bit = 0 ∧ (oneBitCalls 7 init).1.sum = 7 * SIM_SAMPLE_HZ / BAUD_RATE :=
  ⟨rfl, (no_drift_beyond_one_unit init 7 rfl).1⟩

/-! ## Half-bit generator: exact behaviour -/

theorem ticks_for_half_bit_eq (s : State) :
    ticks_for_half_bit s =
      (if (s.frac_accum_half + 1) % 4 = 0 then 782 else 781,
       { s with frac_accum_half := (s.frac_accum_half + 1) % 4 }) := by
  unfold ticks_for_half_bit
  simp only [half_step_eq]
  split <;> simp [SIM_SAMPLE_HZ, BAUD_RATE, U32]

theorem halfBitCalls_add (m n : Nat) (s : State) :
    halfBitCalls (m + n) s =
      ((halfBitCalls m s).1 ++ (halfBitCalls n (halfBitCalls m s).2).1,
       (halfBitCalls n (halfBitCalls m s).2).2) := by
  induction m generalizing s with
  | zero => simp [halfBitCalls]
  | succ m ih =>
    rw [Nat.add_right_comm]
    simp only [halfBitCalls, ih, List.cons_append]

/-- Four consecutive calls: one 782 and three 781, in the order fixed by the
counter, and the counter is restored. -/
theorem halfBitCalls_four (s : State) (h : s.frac_accum_half < 4) :
    (halfBitCalls 4 s).1 =
        [if s.frac_accum_half = 3 then 782 else 781,
         if s.frac_accum_half = 2 then 782 else 781,
         if s.frac_accum_half = 1 then 782 else 781,
         if s.frac_accum_half = 0 then 782 else 781] ∧
    (halfBitCalls 4 s).2 = s := by
  obtain ⟨a, c, r, t, i, x, l, o⟩ := s
  simp only at h
  simp only [halfBitCalls, ticks_for_half_bit_eq]
  interval_cases c <;> simp

theorem halfBitCalls_mul_four (k : Nat) (s : State) (h : s.frac_accum_half < 4) :
    (halfBitCalls (4 * k) s).1.sum = 3125 * k ∧ (halfBitCalls (4 * k) s).2 = s := by
  induction k with
  | zero => simp [halfBitCalls]
  | succ k ih =>
    obtain ⟨i1, i2⟩ := ih
    obtain ⟨t1, t2⟩ := halfBitCalls_four s h
    have e : 4 * (k + 1) = 4 * k + 4 := by ring
    have hsum : (halfBitCalls 4 s).1.sum = 3125 := by
      rw [t1]
      have : s.frac_accum_half = 0 ∨ s.frac_accum_half = 1 ∨ s.frac_accum_half = 2 ∨
          s.frac_accum_half = 3 := by omega
      rcases this with e | e | e | e <;> simp [e]
    rw [e, halfBitCalls_add, i2]
    simp only [List.sum_append, i1, hsum, t2, and_true]
    ring

theorem halfBitCalls_getElem (n : Nat) (s : State) (i : Nat) (hi : i < n) :
    (halfBitCalls n s).1[i]? =
      some (if (s.frac_accum_half + i + 1) % 4 = 0 then 782 else 781) := by
  induction n generalizing s i with
  | zero => omega
  | succ n ih =>
    cases i with
    | zero => simp [halfBitCalls, ticks_for_half_bit_eq]
    | succ i =>
      simp only [halfBitCalls, List.getElem?_cons_succ]
      rw [ih _ i (by omega), ticks_for_half_bit_eq]
      have e : ((s.frac_accum_half + 1) % 4 + i + 1) % 4 =
          (s.frac_accum_half + (i + 1) + 1) % 4 := by omega
      simp only [e]

/-- C5 (half-bit timing accuracy): from any value of `frac_accum_half` in
0..3, four consecutive calls of `ticks_for_half_bit` return 782
(`floor(R/B)/2 + 1`) exactly once and 781 (`floor(R/B)/2`) three times, so they
sum to 3125 and `4 * k` consecutive calls sum to `3125 * k`; from the initial
state call number `i + 1` returns 782 exactly when `i + 1` is a multiple
of 4. -/
theorem half_bit_timing_accuracy (s : State) (h : s.frac_accum_half < 4) :
    SIM_SAMPLE_HZ / BAUD_RATE / 2 = 781 ∧
    (halfBitCalls 4 s).1.length = 4 ∧
    (halfBitCalls 4 s).1.count 782 = 1 ∧
    (halfBitCalls 4 s).1.count 781 = 3 ∧
    (halfBitCalls 4 s).1.sum = 3125 ∧
    (∀ k, (halfBitCalls (4 * k) s).1.sum = 3125 * k) ∧
    (∀ n i, i < n →
      (halfBitCalls n init).1[i]? = some (if (i + 1) % 4 = 0 then 782 else 781)) := by
  obtain ⟨t1, -⟩ := halfBitCalls_four s h
  have hc : s.frac_accum_half = 0 ∨ s.frac_accum_half = 1 ∨ s.frac_accum_half = 2 ∨
      s.frac_accum_half = 3 := by omega
  refine ⟨by simp only [SIM_SAMPLE_HZ, BAUD_RATE], ?_, ?_, ?_, ?_, ?_, ?_⟩
  · rw [t1]; rfl
  · rw [t1]; rcases hc with e | e | e | e <;> simp [e]
  · rw [t1]; rcases hc with e | e | e | e <;> simp [e]
  · rw [t1]; rcases hc with e | e | e | e <;> simp [e]
  · exact fun k => (halfBitCalls_mul_four k s h).1
  · intro n i hi
    rw [halfBitCalls_getElem n init i hi]
    simp [init]

/-- Witness for C5: the counter value 2. -/
theorem half_bit_timing_accuracy_witness :
    ({ init with frac_accum_half := 2 } : State).frac_accum_half < 4 ∧
    (halfBitCalls 4 { init with frac_accum_half := 2 }).1.count 782 = 1 ∧
    (halfBitCalls 4 { init with frac_accum_half := 2 }).1.count 781 = 3 ∧
    (halfBitCalls 4 { init with frac_accum_half := 2 }).1.sum = 3125 :=
  ⟨by decide,
   (half_bit_timing_accuracy { init with frac_accum_half := 2 } (by decide)).2.2.1,
   (half_bit_timing_accuracy { init with frac_accum_half := 2 } (by decide)).2.2.2.1,
   (half_bit_timing_accuracy { init with frac_accum_half := 2 } (by decide)).2.2.2.2.1⟩

/-! ## Cold start and idle line -/

theorem run_init_zeros (n : Nat) :
    run init (List.replicate (n + 1) 0) = ({ init with last_val := 0 }, []) := by
  rw [List.replicate_succ, run, printOut_idle_zero init rfl (by decide)]
  dsimp only
  rw [run_idle_zeros n _ rfl rfl]
  rfl

theorem take_cold_start (n m j : Nat) (h : j ≤ n + m) :
    (List.replicate n 0 ++ List.replicate m 1 ++ [0]).take j =
      List.replicate (min j n) 0 ++ List.replicate (min (j - n) m) 1 := by
  simp [List.take_append_eq_append_take, List.take_replicate]
  omega

/-- C6 (cold-start guard): from the initial state, `n >= 1` logic-0 samples
leave the machine Idle with nothing printed and neither accumulator advanced
(only `last_val` has changed); and on the input `n >= 1` zeros, `m >= 1` ones,
one zero, the machine is Idle after every call except the last, after which it
is Receiving. -/
theorem cold_start_guard (n m : Nat) (hn : 1 ≤ n) (hm : 1 ≤ m) :
    run init (List.replicate n 0) = ({ init with last_val := 0 }, []) ∧
    (run init (List.replicate n 0)).1.is_receiving = false ∧
    (run init (List.replicate n 0)).2 = [] ∧
    (run init (List.replicate n 0)).1.frac_accum_bit = init.frac_accum_bit ∧
    (run init (List.replicate n 0)).1.frac_accum_half = init.frac_accum_half ∧
    (∀ j, j ≤ n + m →
      (run init ((List.replicate n 0 ++ List.replicate m 1 ++ [0]).take j)).1.is_receiving
        = false) ∧
    (run init (List.replicate n 0 ++ List.replicate m 1 ++ [0])).1.is_receiving = true := by
  obtain ⟨n, rfl⟩ : ∃ k, n = k + 1 := ⟨n - 1, by omega⟩
  obtain ⟨m, rfl⟩ : ∃ k, m = k + 1 := ⟨m - 1, by omega⟩
  have hz := run_init_zeros n
  refine ⟨hz, by rw [hz]; rfl, by rw [hz], by rw [hz], by rw [hz], ?_, ?_⟩
  · intro j hj
    rw [take_cold_start _ _ _ hj, run_append]
    dsimp only
    have hidle : (run init (List.replicate (min j (n + 1)) 0)).1.is_receiving = false := by
      rcases Nat.eq_zero_or_pos (min j (n + 1)) with h0 | h0
      · rw [h0]; rfl
      · obtain ⟨i, hi⟩ : ∃ i, min j (n + 1) = i + 1 := ⟨min j (n + 1) - 1, by omega⟩
        rw [hi, run_init_zeros]; rfl
    rcases Nat.eq_zero_or_pos (min (j - (n + 1)) (m + 1)) with h0 | h0
    · rw [h0]; exact hidle
    · obtain ⟨i, hi⟩ : ∃ i, min (j - (n + 1)) (m + 1) = i + 1 :=
        ⟨min (j - (n + 1)) (m + 1) - 1, by omega⟩
      rw [hi, run_idle_ones _ _ hidle]
      exact hidle
  · rw [run_append, run_append, hz]
    dsimp only
    rw [run_idle_ones m _ rfl]
    rfl

/-- Witness for C6: two zeros, three ones, one zero. -/
theorem cold_start_guard_witness :
    run init (List.replicate 2 0) = ({ init with last_val := 0 }, []) ∧
    (run init (List.replicate 2 0 ++ List.replicate 3 1 ++ [0])).1.is_receiving = true :=
  ⟨(cold_start_guard 2 3 (by decide) (by decide)).1,
   (cold_start_guard 2 3 (by decide) (by decide)).2.2.2.2.2.2⟩

/-- C7 (idempotent idle): in a state with `is_receiving = false`, `printOut(1)`
prints nothing, keeps the machine Idle and changes only `seen_idle_one` (to
true) and `last_val` (to 1); the state it produces is a fixed point of any
further number of logic-1 samples, which print nothing. -/
theorem idempotent_idle (s : State) (h : s.is_receiving = false) :
    printOut s 1 = ({ s with seen_idle_one := true, last_val := 1 }, []) ∧
    (printOut s 1).1.is_receiving = false ∧
    (∀ n, run (printOut s 1).1 (List.replicate n 1) = ((printOut s 1).1, [])) ∧
    (∀ n, run s (List.replicate (n + 1) 1) = ((printOut s 1).1, [])) := by
  have e := printOut_idle_one s h
  refine ⟨e, by rw [e]; exact h, ?_, ?_⟩
  · intro n
    cases n with
    | zero => rfl
    | succ n =>
      rw [e]
      exact run_idle_ones n { s with seen_idle_one := true, last_val := 1 } h
  · intro n
    rw [e, run_idle_ones n s h]

/-- Witness for C7: the initial state. -/
theorem idempotent_idle_witness :
    init.is_receiving = false ∧
    printOut init 1 = ({ init with seen_idle_one := true, last_val := 1 }, []) ∧
    run (printOut init 1).1 (List.replicate 5 1) = ((printOut init 1).1, []) :=
  ⟨rfl, (idempotent_idle init rfl).1, (idempotent_idle init rfl).2.2.1 5⟩

/-! ## Output -/

theorem printOut_idle_output (s : State) (v : Nat) (h : s.is_receiving = false) :
    (printOut s v).2 = [] := by
  unfold printOut
  rw [if_pos h]

theorem printOut_data_output (s : State) (v : Nat) (h : s.bit_index < 8) :
    (printOut s v).2 = [] := by
  unfold printOut
  split
  · rfl
  · split
    · rfl
    · rfl

theorem printOut_countdown_output (s : State) (v : Nat) (h : 0 < s.ticks_until_sample) :
    (printOut s v).2 = [] := by
  unfold printOut
  split
  · rfl
  · rfl

theorem printOut_output_length (s : State) (v : Nat) : (printOut s v).2.length ≤ 1 := by
  unfold printOut
  split
  · simp
  · split
    · simp
    · split
      · simp
      · dsimp only
        split <;> simp

/-- C8 (stop-bit outcome): in a state with `is_receiving = true`,
`ticks_until_sample = 0` and `bit_index = 8`, `printOut(1)` prints exactly the
character `rx_byte` and `printOut(0)` prints exactly the line
`Stoppbit falsch!\n`; either way only `is_receiving` (now false) and `last_val`
(now the level) change.  A call made while Idle, during a countdown or at a
data-bit instant prints nothing, every call prints at most one item, and with
`bit_index <= 8` a call that prints is a stop-bit instant. -/
theorem stop_bit_outcome (s : State) (h1 : s.is_receiving = true)
    (h2 : s.ticks_until_sample = 0) (h3 : s.bit_index = 8) :
    printOut s 1 = ({ s with is_receiving := false, last_val := 1 }, [Output.char s.rx_byte]) ∧
    printOut s 0 = ({ s with is_receiving := false, last_val := 0 }, [Output.stoppbitFalsch]) ∧
    stdoutBytes (printOut s 1).2 = [s.rx_byte] ∧
    stdoutBytes (printOut s 0).2 =
      [83, 116, 111, 112, 112, 98, 105, 116, 32, 102, 97, 108, 115, 99, 104, 33, 10] ∧
    (∀ (r : State) (v : Nat),
      (r.is_receiving = false ∨ 0 < r.ticks_until_sample ∨ r.bit_index < 8) →
        (printOut r v).2 = []) ∧
    (∀ (r : State) (v : Nat), (printOut r v).2.length ≤ 1) ∧
    (∀ (r : State) (v : Nat), r.bit_index ≤ 8 → (printOut r v).2 ≠ [] →
      r.is_receiving = true ∧ r.ticks_until_sample = 0 ∧ r.bit_index = 8) := by
  have e1 := printOut_stop s 1 h1 h2 (by omega)
  have e0 := printOut_stop s 0 h1 h2 (by omega)
  rw [if_pos rfl] at e1
  rw [if_neg (by decide)] at e0
  have hq : ∀ (r : State) (v : Nat),
      (r.is_receiving = false ∨ 0 < r.ticks_until_sample ∨ r.bit_index < 8) →
        (printOut r v).2 = [] := by
    intro r v h
    rcases h with h | h | h
    · exact printOut_idle_output r v h
    · by_cases hr : r.is_receiving = false
      · exact printOut_idle_output r v hr
      · rw [printOut_countdown r v (by simpa using hr) h]
    · exact printOut_data_output r v h
  refine ⟨e1, e0, by rw [e1]; rfl, by rw [e0]; rfl, hq, printOut_output_length, ?_⟩
  intro r v hr hne
  by_cases a : r.is_receiving = false
  · exact absurd (hq r v (Or.inl a)) hne
  · by_cases b : 0 < r.ticks_until_sample
    · exact absurd (hq r v (Or.inr (Or.inl b))) hne
    · by_cases c : r.bit_index < 8
      · exact absurd (hq r v (Or.inr (Or.inr c))) hne
      · exact ⟨by simpa using a, by omega, by omega⟩

/-- Witness for C8: the stop-bit instant of a frame that assembled 0x41. -/
theorem stop_bit_outcome_witness :
    (stopInstant41.is_receiving = true ∧ stopInstant41.ticks_until_sample = 0 ∧
      stopInstant41.bit_index = 8) ∧
    (printOut stopInstant41 1).2 = [Output.char 0x41] ∧
    (printOut stopInstant41 0).2 = [Output.stoppbitFalsch] :=
  ⟨⟨rfl, rfl, rfl⟩,
   congrArg Prod.snd (stop_bit_outcome stopInstant41 rfl rfl rfl).1,
   congrArg Prod.snd (stop_bit_outcome stopInstant41 rfl rfl rfl).2.1⟩

/-! ## Spacing of sampling instants -/

/-- After a data-bit instant that scheduled `t` ticks, the next `t` calls all
count down, whatever the samples: the call after them is the next sampling
instant. -/
theorem run_after_data_instant (s : State) (v : Nat) (xs : List Nat)
    (h1 : s.is_receiving = true) (h2 : s.ticks_until_sample = 0) (h3 : s.bit_index < 8)
    (hx : xs.length ≤ (printOut s v).1.ticks_until_sample) :
    run (printOut s v).1 xs =
      ({ (printOut s v).1 with
          ticks_until_sample := (printOut s v).1.ticks_until_sample - xs.length }, []) := by
  exact run_countdown xs _ (printOut_data_state s v h1 h2 h3).2.1 hx

/-- In the first frame of a run the first data-bit instant comes 2344 calls
after the start-edge call, whatever the samples in between. -/
theorem run_init_firstDataInstant (xs : List Nat) (h : xs.length = 2343) :
    run init (1 :: 0 :: xs) = (firstDataInstant, []) := by
  have e1 : printOut init 1 = ({ init with seen_idle_one := true }, []) := by decide
  have e2 : printOut { init with seen_idle_one := true } 0 =
      ({ firstDataInstant with ticks_until_sample := 2343 }, []) := by decide
  rw [run, e1]
  dsimp only
  rw [run, e2]
  dsimp only
  rw [run_countdown _ _ rfl (by rw [h])]
  rw [h]
  rfl

theorem printOut_firstDataInstant :
    printOut firstDataInstant 1 = (afterFirstData, []) := by
  decide

/-- The calls after the first data-bit instant of the first frame, which
scheduled 1563 ticks: after 1562 of them one tick is pending, after 1563 the
machine is at the next sampling instant with `bit_index` still 1, and one more
call samples data bit 1. -/
theorem run_afterFirstData (xs : List Nat) (v : Nat) :
    (xs.length = 1562 → ¬ atSamplingInstant (run afterFirstData xs).1) ∧
    (xs.length = 1563 →
      (run afterFirstData xs).1.bit_index = 1 ∧
      atSamplingInstant (run afterFirstData xs).1 ∧
      (run afterFirstData (xs ++ [v])).1.bit_index = 2) := by
  constructor
  · intro h
    rw [run_countdown xs afterFirstData rfl (by rw [h]; decide), h,
      show afterFirstData.ticks_until_sample = 1563 from rfl]
    intro c
    exact absurd c.2 (by decide)
  · intro h
    have c2 := run_countdown xs afterFirstData rfl (by rw [h]; decide)
    rw [h, show afterFirstData.ticks_until_sample = 1563 from rfl, Nat.sub_self] at c2
    have hb : (printOut { afterFirstData with ticks_until_sample := 0 } v).1.bit_index = 2 := by
      rw [(printOut_data_state { afterFirstData with ticks_until_sample := 0 } v rfl rfl
        (by decide)).2.2.1]
      rfl
    have c1 : (run afterFirstData xs).1 = { afterFirstData with ticks_until_sample := 0 } := by
      rw [c2]
    have e : (run afterFirstData (xs ++ [v])).1 = (printOut (run afterFirstData xs).1 v).1 := by
      rw [run_snoc]
    rw [e, c1]
    exact ⟨rfl, ⟨rfl, rfl⟩, hb⟩

/-- C9 (sample spacing), the code at a concrete input: in the first frame of a
run the first data-bit instant is reached after one logic-1 sample, the
logic-0 edge sample and 2343 further samples; sampling a 1 there schedules
`t = 1563` ticks.  The state in front of the 1563rd call after that instant is
not a sampling instant (one tick is still pending) and that call samples
nothing (`bit_index` stays 1); the next sampling instant is the 1564th call,
which takes `bit_index` to 2. -/
theorem sample_spacing_off_by_one :
    run init (1 :: 0 :: List.replicate 2343 0) = (firstDataInstant, []) ∧
    atSamplingInstant firstDataInstant ∧ firstDataInstant.bit_index < 8 ∧
    (ticks_for_one_bit firstDataInstant).1 = 1563 ∧
    printOut firstDataInstant 1 = (afterFirstData, []) ∧
    afterFirstData.ticks_until_sample = 1563 ∧
    afterFirstData.bit_index = 1 ∧
    ¬ atSamplingInstant (run afterFirstData (List.replicate 1562 1)).1 ∧
    (run afterFirstData (List.replicate 1563 1)).1.bit_index = 1 ∧
    atSamplingInstant (run afterFirstData (List.replicate 1563 1)).1 ∧
    (run afterFirstData (List.replicate 1563 1 ++ [1])).1.bit_index = 2 :=
  ⟨run_init_firstDataInstant _ (List.length_replicate 2343 0),
   ⟨rfl, rfl⟩, by decide, by decide, printOut_firstDataInstant, rfl, rfl,
   (run_afterFirstData _ 1).1 (List.length_replicate 1562 1),
   ((run_afterFirstData _ 1).2 (List.length_replicate 1563 1)).1,
   ((run_afterFirstData _ 1).2 (List.length_replicate 1563 1)).2.1,
   ((run_afterFirstData _ 1).2 (List.length_replicate 1563 1)).2.2⟩

/-! ## One call, by branch -/

/-- The idle branch when the call is not a start edge. -/
theorem printOut_idle_stay (s : State) (v : Nat) (h1 : s.is_receiving = false)
    (h2 : ¬ (v = 0 ∧ s.last_val = 1 ∧ s.seen_idle_one = true)) :
    printOut s v =
      ({ s with seen_idle_one := if v = 1 then true else s.seen_idle_one, last_val := v },
       []) := by
  unfold printOut
  rw [if_pos h1]
  dsimp only
  by_cases hv : v = 1
  · have h0 : ¬ v = 0 := by omega
    rw [if_pos hv, if_neg (fun c => h0 c.2.2), if_pos hv]
  · rw [if_neg hv, if_neg (fun c => h2 ⟨c.2.2, c.2.1, c.1⟩), if_neg hv]

/-- Every call falls in exactly one of the five branches of `printOut`. -/
theorem printOut_cases (s : State) (v : Nat) :
    (s.is_receiving = false ∧ v = 0 ∧ s.last_val = 1 ∧ s.seen_idle_one = true) ∨
    (s.is_receiving = false ∧ ¬ (v = 0 ∧ s.last_val = 1 ∧ s.seen_idle_one = true)) ∨
    (s.is_receiving = true ∧ 0 < s.ticks_until_sample) ∨
    (s.is_receiving = true ∧ s.ticks_until_sample = 0 ∧ s.bit_index < 8) ∨
    (s.is_receiving = true ∧ s.ticks_until_sample = 0 ∧ ¬ s.bit_index < 8) := by
  by_cases a : s.is_receiving = false
  · by_cases b : v = 0 ∧ s.last_val = 1 ∧ s.seen_idle_one = true
    · exact Or.inl ⟨a, b⟩
    · exact Or.inr (Or.inl ⟨a, b⟩)
  · have a2 : s.is_receiving = true := by simpa using a
    by_cases b : 0 < s.ticks_until_sample
    · exact Or.inr (Or.inr (Or.inl ⟨a2, b⟩))
    · by_cases c : s.bit_index < 8
      · exact Or.inr (Or.inr (Or.inr (Or.inl ⟨a2, by omega, c⟩)))
      · exact Or.inr (Or.inr (Or.inr (Or.inr ⟨a2, by omega, c⟩)))

/-! ## Countdown and start edge -/

/-- C14 (countdown frame condition): in a state with `is_receiving = true` and
`ticks_until_sample > 0` a call decreases `ticks_until_sample` by exactly 1,
changes no other field, prints nothing, and its result does not depend on the
level. -/
theorem countdown_frame_condition (s : State) (v : Nat) (h1 : s.is_receiving = true)
    (h2 : 0 < s.ticks_until_sample) :
    printOut s v = ({ s with ticks_until_sample := s.ticks_until_sample - 1 }, []) ∧
    (printOut s v).1.ticks_until_sample + 1 = s.ticks_until_sample ∧
    (printOut s v).1.is_receiving = s.is_receiving ∧
    (printOut s v).1.bit_index = s.bit_index ∧
    (printOut s v).1.rx_byte = s.rx_byte ∧
    (printOut s v).1.last_val = s.last_val ∧
    (printOut s v).1.seen_idle_one = s.seen_idle_one ∧
    (printOut s v).1.frac_accum_bit = s.frac_accum_bit ∧
    (printOut s v).1.frac_accum_half = s.frac_accum_half ∧
    (printOut s v).2 = [] ∧
    ∀ w, printOut s w = printOut s v := by
  have e := printOut_countdown s v h1 h2
  refine ⟨e, ?_, ?_, ?_, ?_, ?_, ?_, ?_, ?_, ?_, ?_⟩
  · rw [e]; dsimp only; omega
  · rw [e]
  · rw [e]
  · rw [e]
  · rw [e]
  · rw [e]
  · rw [e]
  · rw [e]
  · rw [e]
  · intro w
    rw [e, printOut_countdown s w h1 h2]

/-- Witness for C14: three ticks pending, level 1. -/
theorem countdown_frame_condition_witness :
    printOut { afterFirstData with ticks_until_sample := 3 } 1 =
      ({ afterFirstData with ticks_until_sample := 2 }, []) :=
  (countdown_frame_condition { afterFirstData with ticks_until_sample := 3 } 1 rfl
    (by decide)).1

/-- While the machine stays Idle neither generator is called. -/
theorem idle_run_accumulators (xs : List Nat) (s : State)
    (h : ∀ j, j ≤ xs.length → (run s (xs.take j)).1.is_receiving = false) :
    (run s xs).1.frac_accum_bit = s.frac_accum_bit ∧
    (run s xs).1.frac_accum_half = s.frac_accum_half := by
  induction xs generalizing s with
  | nil => exact ⟨rfl, rfl⟩
  | cons v vs ih =>
    have h0 : s.is_receiving = false := h 0 (Nat.zero_le _)
    have h1 : (printOut s v).1.is_receiving = false := by
      have := h 1 (by simp)
      simpa [run] using this
    have hne : ¬ (v = 0 ∧ s.last_val = 1 ∧ s.seen_idle_one = true) := by
      intro c
      rw [c.1, (printOut_edge_state s h0 c.2.1 c.2.2).2.1] at h1
      exact Bool.noConfusion h1
    have hs := ih (printOut s v).1 (fun j hj => by
      have := h (j + 1) (by simp only [List.length_cons]; omega)
      simpa [run] using this)
    rw [run_cons]
    refine ⟨hs.1.trans ?_, hs.2.trans ?_⟩ <;> rw [printOut_idle_stay s v h0 hne]

/-- C13 (start-edge transition): in a state with `is_receiving = false` and for
a level in {0,1}, the call enters Receiving exactly when the level is 0,
`last_val = 1` and `seen_idle_one = true`.  When it does, `bit_index = 0`,
`rx_byte = 0`, each generator is advanced once and `ticks_until_sample` is the
sum of their values, between 2343 and 2345, and 2343 when both accumulators
still have their initial values, as they do until the first start edge of a
run.  When it does not, neither accumulator changes and `bit_index`, `rx_byte`,
`ticks_until_sample` are unchanged.  Either way `last_val` is the level and
nothing is printed. -/
theorem start_edge_transition (s : State) (v : Nat) (h : s.is_receiving = false)
    (hv : v = 0 ∨ v = 1) :
    ((printOut s v).1.is_receiving = true ↔
      (v = 0 ∧ s.last_val = 1 ∧ s.seen_idle_one = true)) ∧
    ((printOut s v).1.is_receiving = true →
      (printOut s v).1.bit_index = 0 ∧ (printOut s v).1.rx_byte = 0 ∧
      (printOut s v).1.ticks_until_sample =
        (ticks_for_half_bit s).1 + (ticks_for_one_bit s).1 ∧
      (printOut s v).1.frac_accum_half = (ticks_for_half_bit s).2.frac_accum_half ∧
      (printOut s v).1.frac_accum_bit = (ticks_for_one_bit s).2.frac_accum_bit ∧
      2343 ≤ (printOut s v).1.ticks_until_sample ∧
      (printOut s v).1.ticks_until_sample ≤ 2345 ∧
      (s.frac_accum_bit = init.frac_accum_bit → s.frac_accum_half = init.frac_accum_half →
        (printOut s v).1.ticks_until_sample = 2343)) ∧
    ((printOut s v).1.is_receiving = false →
      (printOut s v).1.frac_accum_bit = s.frac_accum_bit ∧
      (printOut s v).1.frac_accum_half = s.frac_accum_half ∧
      (printOut s v).1.bit_index = s.bit_index ∧
      (printOut s v).1.rx_byte = s.rx_byte ∧
      (printOut s v).1.ticks_until_sample = s.ticks_until_sample) ∧
    (printOut s v).1.last_val = v ∧
    (printOut s v).2 = [] ∧
    (∀ xs : List Nat,
      (∀ j, j ≤ xs.length → (run init (xs.take j)).1.is_receiving = false) →
        (run init xs).1.frac_accum_bit = init.frac_accum_bit ∧
        (run init xs).1.frac_accum_half = init.frac_accum_half) := by
  have hlast : ∀ xs : List Nat,
      (∀ j, j ≤ xs.length → (run init (xs.take j)).1.is_receiving = false) →
        (run init xs).1.frac_accum_bit = init.frac_accum_bit ∧
        (run init xs).1.frac_accum_half = init.frac_accum_half :=
    fun xs hx => idle_run_accumulators xs init hx
  by_cases c : v = 0 ∧ s.last_val = 1 ∧ s.seen_idle_one = true
  · obtain ⟨rfl, c2, c3⟩ := c
    obtain ⟨a0, a1, a2, a3, a4, a5, a6, a7, -⟩ := printOut_edge_state s h c2 c3
    have b1 := ticks_for_half_bit_fst s
    have b2 := ticks_for_one_bit_fst s
    have ht : (printOut s 0).1.ticks_until_sample =
        (ticks_for_half_bit s).1 + (ticks_for_one_bit s).1 := by
      rw [a4]; simp only [U32]; omega
    refine ⟨⟨fun _ => ⟨rfl, c2, c3⟩, fun _ => a1⟩, fun _ => ?_, fun hn => ?_, a7, a0, hlast⟩
    · refine ⟨a2, a3, ht, a6, a5, by omega, by omega, ?_⟩
      intro hb hh
      rw [ht, ticks_for_half_bit_eq, ticks_for_one_bit_low s (by rw [hb]; decide), hh]
      rfl
    · rw [a1] at hn
      exact absurd hn (by decide)
  · have e := printOut_idle_stay s v h c
    have hrec : (printOut s v).1.is_receiving = false := by rw [e]; exact h
    refine ⟨⟨fun hr => ?_, fun hc => absurd hc c⟩, fun hr => ?_, fun _ => ?_, ?_, ?_, hlast⟩
    · rw [hrec] at hr; exact absurd hr (by decide)
    · rw [hrec] at hr; exact absurd hr (by decide)
    · rw [e]; exact ⟨rfl, rfl, rfl, rfl, rfl⟩
    · rw [e]
    · rw [e]

/-- Witness for C13: the first start edge of a run, after one logic-1 sample. -/
theorem start_edge_transition_witness :
    (printOut { init with seen_idle_one := true } 0).1.is_receiving = true ∧
    (printOut { init with seen_idle_one := true } 0).1.ticks_until_sample = 2343 ∧
    (printOut { init with seen_idle_one := true } 0).1.last_val = 0 :=
  ⟨(start_edge_transition { init with seen_idle_one := true } 0 rfl (Or.inl rfl)).1.2
      ⟨rfl, rfl, rfl⟩,
   ((start_edge_transition { init with seen_idle_one := true } 0 rfl (Or.inl rfl)).2.1
      ((start_edge_transition { init with seen_idle_one := true } 0 rfl (Or.inl rfl)).1.2
        ⟨rfl, rfl, rfl⟩)).2.2.2.2.2.2.2 rfl rfl,
   (start_edge_transition { init with seen_idle_one := true } 0 rfl (Or.inl rfl)).2.2.2.1⟩

/-! ## Accumulators along a run -/

/-- A call of `printOut` leaves each accumulator alone or advances it by one
call of its generator. -/
theorem printOut_accumulators (s : State) (v : Nat) :
    ((printOut s v).1.frac_accum_bit = s.frac_accum_bit ∨
      (printOut s v).1.frac_accum_bit = (ticks_for_one_bit s).2.frac_accum_bit) ∧
    ((printOut s v).1.frac_accum_half = s.frac_accum_half ∨
      (printOut s v).1.frac_accum_half = (ticks_for_half_bit s).2.frac_accum_half) := by
  rcases printOut_cases s v with c | c | c | c | c
  · obtain ⟨c1, rfl, c3, c4⟩ := c
    obtain ⟨-, -, -, -, -, a5, a6, -, -⟩ := printOut_edge_state s c1 c3 c4
    exact ⟨Or.inr a5, Or.inr a6⟩
  · rw [printOut_idle_stay s v c.1 c.2]
    exact ⟨Or.inl rfl, Or.inl rfl⟩
  · rw [printOut_countdown s v c.1 c.2]
    exact ⟨Or.inl rfl, Or.inl rfl⟩
  · obtain ⟨-, -, -, -, -, a5, a6, -, -⟩ := printOut_data_state s v c.1 c.2.1 c.2.2
    exact ⟨Or.inr a5, Or.inl a6⟩
  · rw [printOut_stop s v c.1 c.2.1 c.2.2]
    exact ⟨Or.inl rfl, Or.inl rfl⟩

theorem ticks_for_one_bit_accInRange (s : State) (h : accInRange s) :
    accInRange (ticks_for_one_bit s).2 := by
  obtain ⟨h1, h2⟩ := h
  simp only [BAUD_RATE] at h1
  refine ⟨?_, by rw [one_bit_frac_accum_half]; exact h2⟩
  simp only [BAUD_RATE]
  by_cases c : s.frac_accum_bit < 57600
  · rw [ticks_for_one_bit_low s c]; dsimp only; omega
  · rw [ticks_for_one_bit_high s (by omega) h1]; dsimp only; omega

theorem ticks_for_half_bit_accInRange (s : State) (h : accInRange s) :
    accInRange (ticks_for_half_bit s).2 := by
  refine ⟨by rw [half_bit_frac_accum_bit]; exact h.1, ?_⟩
  rw [ticks_for_half_bit_eq]
  dsimp only
  omega

theorem printOut_accInRange (s : State) (v : Nat) (h : accInRange s) :
    accInRange (printOut s v).1 := by
  obtain ⟨a, b⟩ := printOut_accumulators s v
  have h1 := ticks_for_one_bit_accInRange s h
  have h2 := ticks_for_half_bit_accInRange s h
  unfold accInRange at *
  constructor
  · rcases a with a | a <;> rw [a]
    · exact h.1
    · exact h1.1
  · rcases b with b | b <;> rw [b]
    · exact h.2
    · exact h2.2

/-- In a run from the initial state `frac_accum_bit` is 0 or 57600. -/
theorem run_init_frac_accum_bit (xs : List Nat) :
    (run init xs).1.frac_accum_bit = 0 ∨ (run init xs).1.frac_accum_bit = 57600 := by
  refine run_invariant (fun s => s.frac_accum_bit = 0 ∨ s.frac_accum_bit = 57600) ?_ xs init
    (Or.inl rfl)
  intro s v h
  rcases (printOut_accumulators s v).1 with a | a
  · rw [a]; exact h
  · rw [a]
    rcases h with h | h
    · rw [ticks_for_one_bit_low s (by omega)]; dsimp only; omega
    · rw [ticks_for_one_bit_high s (by omega) (by omega)]; dsimp only; omega

/-- C17 (accumulator ranges): `frac_accum_bit < BAUD_RATE` and
`frac_accum_half < 4` hold initially and are kept by every call of
`ticks_for_one_bit`, of `ticks_for_half_bit` and of `printOut`, hence hold in
every state of a run; in a run from the initial state `frac_accum_bit` is
always 0 or 57600, so `frac_accum_bit + 57600` stays below `2^32`. -/
theorem accumulator_ranges :
    accInRange init ∧
    (∀ s, accInRange s → accInRange (ticks_for_one_bit s).2) ∧
    (∀ s, accInRange s → accInRange (ticks_for_half_bit s).2) ∧
    (∀ s v, accInRange s → accInRange (printOut s v).1) ∧
    (∀ xs, accInRange (run init xs).1) ∧
    (∀ xs, (run init xs).1.frac_accum_bit = 0 ∨ (run init xs).1.frac_accum_bit = 57600) ∧
    (∀ xs, (run init xs).1.frac_accum_bit + SIM_SAMPLE_HZ % BAUD_RATE < U32) := by
  refine ⟨by decide, ticks_for_one_bit_accInRange, ticks_for_half_bit_accInRange,
    printOut_accInRange, ?_, run_init_frac_accum_bit, ?_⟩
  · intro xs
    exact run_invariant accInRange printOut_accInRange xs init (by decide)
  · intro xs
    have := run_init_frac_accum_bit xs
    simp only [SIM_SAMPLE_HZ, BAUD_RATE, U32]
    omega

/-- C11 (alternation): in every state of a run from the initial state, a call
of `ticks_for_one_bit` returns 1562 or 1563 and the call after it returns the
other value, the two summing to 3125; `printOut` changes `frac_accum_bit` only
through such a call; and in a sequence of calls from the initial state the
odd-numbered calls return 1562 and the even-numbered calls 1563. -/
theorem alternation (xs : List Nat) :
    ((ticks_for_one_bit (run init xs).1).1 = 1562 ∨
      (ticks_for_one_bit (run init xs).1).1 = 1563) ∧
    (ticks_for_one_bit (ticks_for_one_bit (run init xs).1).2).1 ≠
      (ticks_for_one_bit (run init xs).1).1 ∧
    (ticks_for_one_bit (run init xs).1).1 +
      (ticks_for_one_bit (ticks_for_one_bit (run init xs).1).2).1 = 3125 ∧
    (∀ v, (printOut (run init xs).1 v).1.frac_accum_bit = (run init xs).1.frac_accum_bit ∨
      (printOut (run init xs).1 v).1.frac_accum_bit =
        (ticks_for_one_bit (run init xs).1).2.frac_accum_bit) ∧
    (∀ n i, i < n →
      (oneBitCalls n init).1[i]? = some (if i % 2 = 0 then 1562 else 1563)) := by
  have hpair : ∀ s : State, (s.frac_accum_bit = 0 ∨ s.frac_accum_bit = 57600) →
      ((ticks_for_one_bit s).1 = 1562 ∧ (ticks_for_one_bit (ticks_for_one_bit s).2).1 = 1563) ∨
      ((ticks_for_one_bit s).1 = 1563 ∧ (ticks_for_one_bit (ticks_for_one_bit s).2).1 = 1562) := by
    intro s h
    rcases h with h | h
    · left
      rw [ticks_for_one_bit_low s (by omega)]
      dsimp only
      rw [ticks_for_one_bit_high _ (by dsimp only; omega) (by dsimp only; omega)]
      exact ⟨rfl, rfl⟩
    · right
      rw [ticks_for_one_bit_high s (by omega) (by omega)]
      dsimp only
      rw [ticks_for_one_bit_low _ (by dsimp only; omega)]
      exact ⟨rfl, rfl⟩
  have hidx : ∀ n (s : State) i, i < n →
      (s.frac_accum_bit = 0 ∨ s.frac_accum_bit = 57600) →
      (oneBitCalls n s).1[i]? =
        some (if (s.frac_accum_bit / 57600 + i) % 2 = 0 then 1562 else 1563) := by
    intro n
    induction n with
    | zero => intro s i hi; omega
    | succ n ih =>
      intro s i hi hs
      cases i with
      | zero =>
        rcases hs with h | h
        · simp only [oneBitCalls, List.getElem?_cons_zero,
            ticks_for_one_bit_low s (by omega), h]
          rfl
        · simp only [oneBitCalls, List.getElem?_cons_zero,
            ticks_for_one_bit_high s (by omega) (by omega), h]
          rfl
      | succ i =>
        simp only [oneBitCalls, List.getElem?_cons_succ]
        rcases hs with h | h
        · rw [ih _ i (by omega) (by
            rw [ticks_for_one_bit_low s (by omega)]; dsimp only; omega)]
          rw [ticks_for_one_bit_low s (by omega)]
          dsimp only
          rw [h]
          have e : ((0 + 57600) / 57600 + i) % 2 = (0 / 57600 + (i + 1)) % 2 := by omega
          rw [e]
        · rw [ih _ i (by omega) (by
            rw [ticks_for_one_bit_high s (by omega) (by omega)]; dsimp only; omega)]
          rw [ticks_for_one_bit_high s (by omega) (by omega)]
          dsimp only
          rw [h]
          have e : ((57600 - 57600) / 57600 + i) % 2 = (57600 / 57600 + (i + 1)) % 2 := by
            omega
          rw [e]
  have hs := run_init_frac_accum_bit xs
  refine ⟨ticks_for_one_bit_fst _, ?_, ?_, fun v => (printOut_accumulators _ v).1, ?_⟩
  · rcases hpair _ hs with ⟨a, b⟩ | ⟨a, b⟩ <;> rw [a, b] <;> decide
  · rcases hpair _ hs with ⟨a, b⟩ | ⟨a, b⟩ <;> rw [a, b]
  · intro n i hi
    rw [hidx n init i hi (Or.inl rfl)]
    have e : (init.frac_accum_bit / 57600 + i) % 2 = i % 2 := by
      show (0 / 57600 + i) % 2 = i % 2
      omega
    rw [e]

/-! ## The `seen_idle_one` guard -/

theorem printOut_seen_idle_one (s : State) (v : Nat) (h : s.seen_idle_one = true) :
    (printOut s v).1.seen_idle_one = true := by
  rcases printOut_cases s v with c | c | c | c | c
  · obtain ⟨c1, rfl, c3, c4⟩ := c
    exact (printOut_edge_state s c1 c3 c4).2.2.2.2.2.2.2.2
  · rw [printOut_idle_stay s v c.1 c.2]
    dsimp only
    rw [h]
    split <;> rfl
  · rw [printOut_countdown s v c.1 c.2]
    exact h
  · exact (printOut_data_state s v c.1 c.2.1 c.2.2).2.2.2.2.2.2.2.2.trans h
  · rw [printOut_stop s v c.1 c.2.1 c.2.2]
    exact h

/-- The guard invariant: a receiving machine has seen a logic-1, and
`last_val = 1` means a logic-1 has been seen. -/
theorem printOut_guard (s : State) (v : Nat)
    (h : (s.is_receiving = true → s.seen_idle_one = true) ∧
      (s.last_val = 1 → s.seen_idle_one = true)) :
    ((printOut s v).1.is_receiving = true → (printOut s v).1.seen_idle_one = true) ∧
    ((printOut s v).1.last_val = 1 → (printOut s v).1.seen_idle_one = true) := by
  rcases printOut_cases s v with c | c | c | c | c
  · have hs := printOut_seen_idle_one s v c.2.2.2
    exact ⟨fun _ => hs, fun _ => hs⟩
  · rw [printOut_idle_stay s v c.1 c.2]
    dsimp only
    refine ⟨fun hr => ?_, fun hl => ?_⟩
    · rw [c.1] at hr; exact absurd hr (by decide)
    · rw [if_pos hl]
  · have hs := printOut_seen_idle_one s v (h.1 c.1)
    exact ⟨fun _ => hs, fun _ => hs⟩
  · have hs := printOut_seen_idle_one s v (h.1 c.1)
    exact ⟨fun _ => hs, fun _ => hs⟩
  · have hs := printOut_seen_idle_one s v (h.1 c.1)
    exact ⟨fun _ => hs, fun _ => hs⟩

/-- The guard invariant holds after the first call of a run. -/
theorem printOut_init_guard (v : Nat) :
    ((printOut init v).1.is_receiving = true → (printOut init v).1.seen_idle_one = true) ∧
    ((printOut init v).1.last_val = 1 → (printOut init v).1.seen_idle_one = true) := by
  rw [printOut_idle_stay init v rfl (fun c => absurd c.2.2 (by decide))]
  dsimp only
  refine ⟨fun hr => absurd hr (by decide), fun hl => ?_⟩
  rw [if_pos hl]

/-- C19 (guard monotonicity): no call sets `seen_idle_one` back to false; in
every state of a run from the initial state `is_receiving = true` implies
`seen_idle_one = true`; after at least one call `last_val = 1` implies
`seen_idle_one = true`, so from then on every falling edge seen while Idle is
taken as a start edge; the guard suppresses an edge only on the very first
call, when the sample is logic-0. -/
theorem guard_monotonicity :
    (∀ s v, s.seen_idle_one = true → (printOut s v).1.seen_idle_one = true) ∧
    (∀ xs, (run init xs).1.is_receiving = true → (run init xs).1.seen_idle_one = true) ∧
    (∀ xs, xs ≠ [] → (run init xs).1.last_val = 1 → (run init xs).1.seen_idle_one = true) ∧
    (∀ xs, xs ≠ [] → (run init xs).1.is_receiving = false → (run init xs).1.last_val = 1 →
      (printOut (run init xs).1 0).1.is_receiving = true) ∧
    (init.last_val = 1 ∧ (printOut init 0).1.is_receiving = false) := by
  have hne : ∀ xs : List Nat, xs ≠ [] →
      ((run init xs).1.is_receiving = true → (run init xs).1.seen_idle_one = true) ∧
      ((run init xs).1.last_val = 1 → (run init xs).1.seen_idle_one = true) := by
    intro xs hx
    cases xs with
    | nil => exact absurd rfl hx
    | cons v vs =>
      rw [run_cons]
      exact run_invariant
        (fun s => (s.is_receiving = true → s.seen_idle_one = true) ∧
          (s.last_val = 1 → s.seen_idle_one = true))
        printOut_guard vs _ (printOut_init_guard v)
  refine ⟨printOut_seen_idle_one, ?_, fun xs hx => (hne xs hx).2, ?_, rfl, by decide⟩
  · intro xs
    cases xs with
    | nil => intro h; exact absurd h (by decide)
    | cons v vs => exact (hne (v :: vs) (by simp)).1
  · intro xs hx hi hl
    exact (printOut_edge_state _ hi hl ((hne xs hx).2 hl)).2.1

/-! ## Data bits of a frame -/

theorem lsbValue_append (g : List Nat) (v : Nat) :
    lsbValue (g ++ [v]) = lsbValue g + v * 2 ^ g.length := by
  induction g with
  | nil => simp [lsbValue]
  | cons x xs ih =>
    rw [List.cons_append, lsbValue, lsbValue, ih, List.length_cons, pow_succ]
    ring

theorem lsbValue_lt (g : List Nat) (h : ∀ x ∈ g, x ≤ 1) : lsbValue g < 2 ^ g.length := by
  induction g with
  | nil => simp [lsbValue]
  | cons x xs ih =>
    have h1 : x ≤ 1 := h x (List.mem_cons_self _ _)
    have h2 := ih (fun y hy => h y (List.mem_cons_of_mem _ hy))
    simp only [lsbValue, List.length_cons, pow_succ]
    omega

theorem levelBit_le (v : Nat) : levelBit v ≤ 1 := by
  unfold levelBit
  split <;> omega

/-- With bit `k` and all higher bits of `rx_byte` clear, the C update
`rx_byte |= (uint8_t)(1u << k)` is the bitwise or with `2 ^ k`, which adds
`2 ^ k`. -/
theorem or_bit_eq (rx k : Nat) (hk : k < 8) (h : rx < 2 ^ k) :
    (rx ||| ((1 <<< k) % U32) % U8) % U8 = rx ||| 2 ^ k ∧
    (rx ||| ((1 <<< k) % U32) % U8) % U8 = rx + 2 ^ k := by
  have h2 := two_pow_le_128 k hk
  have h4 : (1 <<< k) % U32 % U8 = 2 ^ k := by
    rw [Nat.one_shiftLeft]; simp only [U32, U8]; omega
  have h6 := Nat.mul_add_lt_is_or h 1
  simp only [Nat.mul_one] at h6
  have h7 : rx ||| 2 ^ k = rx + 2 ^ k := by
    rw [Nat.or_comm, ← h6, Nat.add_comm]
  rw [h4, h7]
  have : (rx + 2 ^ k) % U8 = rx + 2 ^ k := by simp only [U8]; omega
  exact ⟨this, this⟩

theorem stepBits_idle_edge (s : State) (g : List Nat) (h1 : s.is_receiving = false)
    (h2 : s.last_val = 1) (h3 : s.seen_idle_one = true) : stepBits s g 0 = [] := by
  unfold stepBits
  rw [if_pos h1, if_pos (printOut_edge_state s h1 h2 h3).2.1]

theorem stepBits_idle_stay (s : State) (g : List Nat) (v : Nat) (h1 : s.is_receiving = false)
    (h2 : ¬ (v = 0 ∧ s.last_val = 1 ∧ s.seen_idle_one = true)) : stepBits s g v = g := by
  unfold stepBits
  rw [if_pos h1, if_neg]
  rw [printOut_idle_stay s v h1 h2]
  dsimp only
  rw [h1]
  decide

theorem stepBits_data (s : State) (g : List Nat) (v : Nat) (h1 : s.is_receiving = true)
    (h2 : s.ticks_until_sample = 0) (h3 : s.bit_index < 8) :
    stepBits s g v = g ++ [levelBit v] := by
  unfold stepBits
  rw [if_neg (by rw [h1]; decide), if_pos ⟨h2, h3⟩]

theorem stepBits_other (s : State) (g : List Nat) (v : Nat) (h1 : s.is_receiving = true)
    (h2 : ¬ (s.ticks_until_sample = 0 ∧ s.bit_index < 8)) : stepBits s g v = g := by
  unfold stepBits
  rw [if_neg (by rw [h1]; decide), if_neg h2]

/-- A property of state and bookkeeping kept by every call holds after any
sequence of calls. -/
theorem frameBits_invariant (P : State → List Nat → Prop)
    (hstep : ∀ s g v, P s g → P (printOut s v).1 (stepBits s g v))
    (xs : List Nat) (s : State) (g : List Nat) (h : P s g) :
    P (run s xs).1 (frameBits s g xs) := by
  induction xs generalizing s g with
  | nil => exact h
  | cons v vs ih => exact ih _ _ (hstep s g v h)

/-- What a data-bit sampling instant does to `bit_index` and `rx_byte` when
the bits of `rx_byte` from `bit_index` up are clear. -/
theorem printOut_data_fields (s : State) (v : Nat) (h1 : s.is_receiving = true)
    (h2 : s.ticks_until_sample = 0) (h3 : s.bit_index < 8)
    (h4 : s.rx_byte < 2 ^ s.bit_index) :
    (printOut s v).1.bit_index = s.bit_index + 1 ∧
    (printOut s v).1.rx_byte = s.rx_byte + levelBit v * 2 ^ s.bit_index ∧
    (printOut s v).1.rx_byte = (if v ≠ 0 then s.rx_byte ||| 2 ^ s.bit_index else s.rx_byte) := by
  obtain ⟨-, -, a2, a3, -, -, -, -, -⟩ := printOut_data_state s v h1 h2 h3
  have hb : (s.bit_index + 1) % U8 = s.bit_index + 1 := by simp only [U8]; omega
  obtain ⟨o1, o2⟩ := or_bit_eq s.rx_byte s.bit_index h3 h4
  refine ⟨a2.trans hb, ?_, ?_⟩
  · rw [a3]
    unfold levelBit
    by_cases hv : v ≠ 0
    · rw [if_pos hv, if_pos hv, o2]; omega
    · rw [if_neg hv, if_neg hv]; omega
  · rw [a3]
    by_cases hv : v ≠ 0
    · rw [if_pos hv, if_pos hv, o1]
    · rw [if_neg hv, if_neg hv]

theorem printOut_frameBitsOk (s : State) (g : List Nat) (v : Nat) (h : FrameBitsOk s g) :
    FrameBitsOk (printOut s v).1 (stepBits s g v) := by
  obtain ⟨a1, a2, a3, a4⟩ := h
  rcases printOut_cases s v with c | c | c | c | c
  · obtain ⟨c1, rfl, c3, c4⟩ := c
    obtain ⟨-, -, e2, e3, -, -, -, -, -⟩ := printOut_edge_state s c1 c3 c4
    rw [stepBits_idle_edge s g c1 c3 c4]
    refine ⟨?_, ?_, ?_, ?_⟩
    · rw [e2]; rfl
    · rw [e2]; exact Nat.zero_le _
    · rw [e3]; rfl
    · intro x hx; exact absurd hx (List.not_mem_nil x)
  · rw [stepBits_idle_stay s g v c.1 c.2, printOut_idle_stay s v c.1 c.2]
    exact ⟨a1, a2, a3, a4⟩
  · rw [stepBits_other s g v c.1 (fun d => by omega), printOut_countdown s v c.1 c.2]
    exact ⟨a1, a2, a3, a4⟩
  · have hlt : s.rx_byte < 2 ^ s.bit_index := by
      rw [a3, ← a1]; exact lsbValue_lt g a4
    obtain ⟨f1, f2, -⟩ := printOut_data_fields s v c.1 c.2.1 c.2.2 hlt
    rw [stepBits_data s g v c.1 c.2.1 c.2.2]
    refine ⟨?_, ?_, ?_, ?_⟩
    · rw [f1, List.length_append, a1]; rfl
    · rw [f1]; omega
    · rw [f2, lsbValue_append, a3, a1]
    · intro x hx
      rcases List.mem_append.1 hx with hx | hx
      · exact a4 x hx
      · rw [List.mem_singleton.1 hx]; exact levelBit_le v
  · rw [stepBits_other s g v c.1 (fun d => c.2.2 d.2), printOut_stop s v c.1 c.2.1 c.2.2]
    exact ⟨a1, a2, a3, a4⟩

theorem run_init_frameBitsOk (xs : List Nat) :
    FrameBitsOk (run init xs).1 (frameBits init [] xs) :=
  frameBits_invariant FrameBitsOk printOut_frameBitsOk xs init []
    ⟨rfl, by decide, rfl, fun x hx => absurd hx (List.not_mem_nil x)⟩

theorem frameBits_snoc (xs : List Nat) (s : State) (g : List Nat) (v : Nat) :
    frameBits s g (xs ++ [v]) = stepBits (run s xs).1 (frameBits s g xs) v := by
  induction xs generalizing s g with
  | nil => rfl
  | cons x xs ih => exact ih _ _

theorem length_eight (g : List Nat) (h : g.length = 8) :
    ∃ a b c d e f x y, g = [a, b, c, d, e, f, x, y] := by
  rcases g with _ | ⟨a, _ | ⟨b, _ | ⟨c, _ | ⟨d, _ | ⟨e, _ | ⟨f, _ | ⟨x, _ | ⟨y, _ | ⟨z, t⟩⟩⟩⟩⟩⟩⟩⟩⟩ <;>
    simp only [List.length_cons, List.length_nil] at h <;> try omega
  exact ⟨a, b, c, d, e, f, x, y, rfl⟩

/-- A call prints a character only at a stop-bit instant sampled at level 1,
and the character is `rx_byte`. -/
theorem printOut_char (s : State) (v c : Nat) (h : (printOut s v).2 = [Output.char c]) :
    s.is_receiving = true ∧ s.ticks_until_sample = 0 ∧ ¬ s.bit_index < 8 ∧ v = 1 ∧
    c = s.rx_byte := by
  rcases printOut_cases s v with d | d | d | d | d
  · rw [printOut_idle_output s v d.1] at h; exact absurd h (by simp)
  · rw [printOut_idle_output s v d.1] at h; exact absurd h (by simp)
  · rw [printOut_countdown_output s v d.2] at h; exact absurd h (by simp)
  · rw [printOut_data_output s v d.2.2] at h; exact absurd h (by simp)
  · rw [printOut_stop s v d.1 d.2.1 d.2.2] at h
    dsimp only at h
    by_cases hv : v = 1
    · rw [if_pos hv] at h
      simp only [List.cons.injEq, Output.char.injEq, and_true] at h
      exact ⟨d.1, d.2.1, d.2.2, hv, h.symm⟩
    · rw [if_neg hv] at h
      exact absurd h (by simp)

/-- C16 (`bit_index` range): in every state of a run from the initial state
`bit_index` is at most 8 and equals the number of data-bit sampling instants
since the latest start edge, so `bit_index = 8` only after eight data-bit
instants of the frame; and whenever the stop-bit branch is taken (Receiving,
no tick pending, not `bit_index < 8`) `bit_index` is exactly 8. -/
theorem bit_index_range (xs : List Nat) :
    (run init xs).1.bit_index ≤ 8 ∧
    (frameBits init [] xs).length = (run init xs).1.bit_index ∧
    ((run init xs).1.bit_index = 8 → (frameBits init [] xs).length = 8) ∧
    ((run init xs).1.is_receiving = true → (run init xs).1.ticks_until_sample = 0 →
      ¬ (run init xs).1.bit_index < 8 → (run init xs).1.bit_index = 8) := by
  obtain ⟨a1, a2, -, -⟩ := run_init_frameBitsOk xs
  exact ⟨a2, a1, fun h => a1.trans h, fun _ _ h => by omega⟩

/-- C12 (assembled byte is LSB-first): in a run from the initial state, when a
call prints a character `c` the frame has had exactly eight data-bit sampling
instants, with sampled bits `v0 .. v7` (1 for a non-zero level, 0 for level 0),
and `c` is the sum of `v_k * 2 ^ k`; and a data-bit sampling instant increments
`bit_index`, sets bit `bit_index` of `rx_byte` to the sampled bit and leaves
every other bit of `rx_byte` unchanged. -/
theorem assembled_byte_lsb_first (xs : List Nat) (v c : Nat) :
    ((printOut (run init xs).1 v).2 = [Output.char c] →
      ∃ v0 v1 v2 v3 v4 v5 v6 v7,
        frameBits init [] xs = [v0, v1, v2, v3, v4, v5, v6, v7] ∧
        (v0 ≤ 1 ∧ v1 ≤ 1 ∧ v2 ≤ 1 ∧ v3 ≤ 1 ∧ v4 ≤ 1 ∧ v5 ≤ 1 ∧ v6 ≤ 1 ∧ v7 ≤ 1) ∧
        c = v0 * 2 ^ 0 + v1 * 2 ^ 1 + v2 * 2 ^ 2 + v3 * 2 ^ 3 + v4 * 2 ^ 4 + v5 * 2 ^ 5 +
            v6 * 2 ^ 6 + v7 * 2 ^ 7) ∧
    (atSamplingInstant (run init xs).1 → (run init xs).1.bit_index < 8 →
      frameBits init [] (xs ++ [v]) = frameBits init [] xs ++ [levelBit v] ∧
      (printOut (run init xs).1 v).1.bit_index = (run init xs).1.bit_index + 1 ∧
      (printOut (run init xs).1 v).1.rx_byte =
        (run init xs).1.rx_byte + levelBit v * 2 ^ (run init xs).1.bit_index ∧
      (printOut (run init xs).1 v).1.rx_byte.testBit (run init xs).1.bit_index =
        decide (v ≠ 0) ∧
      ∀ j, j ≠ (run init xs).1.bit_index →
        (printOut (run init xs).1 v).1.rx_byte.testBit j =
          (run init xs).1.rx_byte.testBit j) := by
  obtain ⟨a1, a2, a3, a4⟩ := run_init_frameBitsOk xs
  constructor
  · intro h
    obtain ⟨d1, d2, d3, -, d5⟩ := printOut_char _ v c h
    obtain ⟨v0, v1, v2, v3, v4, v5, v6, v7, e⟩ :=
      length_eight (frameBits init [] xs) (by omega)
    refine ⟨v0, v1, v2, v3, v4, v5, v6, v7, e, ?_, ?_⟩
    · rw [e] at a4
      simp only [List.mem_cons, List.mem_singleton, List.not_mem_nil, or_false,
        forall_eq_or_imp, forall_eq] at a4
      exact a4
    · rw [d5, a3, e]
      simp only [lsbValue]
      omega
  · intro hs hk
    have hlt : (run init xs).1.rx_byte < 2 ^ (run init xs).1.bit_index := by
      rw [a3, ← a1]; exact lsbValue_lt _ a4
    obtain ⟨f1, f2, f3⟩ := printOut_data_fields _ v hs.1 hs.2 hk hlt
    refine ⟨?_, f1, f2, ?_, ?_⟩
    · rw [frameBits_snoc, stepBits_data _ _ v hs.1 hs.2 hk]
    · rw [f3]
      by_cases hv : v ≠ 0
      · rw [if_pos hv, Nat.testBit_or, Nat.testBit_two_pow_self, Bool.or_true]
        exact (decide_eq_true hv).symm
      · rw [if_neg hv, Nat.testBit_lt_two_pow hlt]
        exact (decide_eq_false hv).symm
    · intro j hj
      rw [f3]
      by_cases hv : v ≠ 0
      · rw [if_pos hv, Nat.testBit_or, Nat.testBit_two_pow_of_ne (Ne.symm hj), Bool.or_false]
      · rw [if_neg hv]

/-! ## Frame timing does not depend on the line levels -/

/-- While Receiving, the timing components after a call depend only on the
timing components before it, not on the sampled level or the other fields. -/
theorem timing_step (s r : State) (v w : Nat) (h : timing s = timing r)
    (hs : s.is_receiving = true) :
    timing (printOut s v).1 = timing (printOut r w).1 := by
  unfold timing at h
  simp only [Prod.mk.injEq] at h
  obtain ⟨e1, e2, e3, e4, e5⟩ := h
  have hr : r.is_receiving = true := by rw [← e1]; exact hs
  by_cases c1 : 0 < s.ticks_until_sample
  · rw [printOut_countdown s v hs c1, printOut_countdown r w hr (by omega)]
    unfold timing
    dsimp only
    rw [e1, e2, e3, e4, e5]
  · by_cases c2 : s.bit_index < 8
    · obtain ⟨-, a1, a2, -, a4, a5, a6, -, -⟩ := printOut_data_state s v hs (by omega) c2
      obtain ⟨-, b1, b2, -, b4, b5, b6, -, -⟩ :=
        printOut_data_state r w hr (by omega) (by omega)
      obtain ⟨g1, g2⟩ := ticks_for_one_bit_congr s r e4
      unfold timing
      rw [a1, a2, a4, a5, a6, b1, b2, b4, b5, b6, g1, g2, e2, e5]
    · rw [printOut_stop s v hs (by omega) c2, printOut_stop r w hr (by omega) (by omega)]
      unfold timing
      dsimp only
      rw [e2, e3, e4, e5]

/-- While Receiving a call never calls `ticks_for_half_bit`, never lowers
`bit_index`, never clears a bit of `rx_byte`, and leaves Receiving only at the
stop-bit instant. -/
theorem printOut_receiving_keeps (s : State) (v : Nat) (hs : s.is_receiving = true)
    (hrx : s.rx_byte < 256) :
    (printOut s v).1.frac_accum_half = s.frac_accum_half ∧
    s.bit_index ≤ (printOut s v).1.bit_index ∧
    (∀ j, s.rx_byte.testBit j = true → (printOut s v).1.rx_byte.testBit j = true) ∧
    ((printOut s v).1.is_receiving = false →
      s.ticks_until_sample = 0 ∧ ¬ s.bit_index < 8) := by
  by_cases c1 : 0 < s.ticks_until_sample
  · rw [printOut_countdown s v hs c1]
    exact ⟨rfl, le_refl _, fun _ h => h, fun h => absurd (hs.symm.trans h) (by decide)⟩
  · by_cases c2 : s.bit_index < 8
    · obtain ⟨-, a1, a2, a3, -, -, a6, -, -⟩ := printOut_data_state s v hs (by omega) c2
      refine ⟨a6, ?_, ?_, fun h => absurd (a1.symm.trans h) (by decide)⟩
      · rw [a2]; simp only [U8]; omega
      · intro j hj
        rw [a3]
        by_cases hv : v ≠ 0
        · rw [if_pos hv]
          have h4 : (1 <<< s.bit_index) % U32 % U8 = 2 ^ s.bit_index := by
            have := two_pow_le_128 s.bit_index c2
            have hp : 0 < 2 ^ s.bit_index := by positivity
            rw [Nat.one_shiftLeft]; simp only [U32, U8]; omega
          have h5 : s.rx_byte ||| 2 ^ s.bit_index < 2 ^ 8 :=
            Nat.or_lt_two_pow (by omega) (by have := two_pow_le_128 s.bit_index c2; omega)
          rw [h4, Nat.mod_eq_of_lt (by simp only [U8]; omega), Nat.testBit_or, hj,
            Bool.true_or]
        · rw [if_neg hv]; exact hj
    · rw [printOut_stop s v hs (by omega) c2]
      exact ⟨rfl, le_refl _, fun _ h => h, fun _ => ⟨by omega, c2⟩⟩

/-- Two sequences of the same length fed from the same receiving state give the
same timing components after every call, as long as the machine was Receiving
before each call of the first sequence. -/
theorem run_timing (xs : List Nat) (ys : List Nat) (s r : State) (h : timing s = timing r)
    (hlen : xs.length = ys.length)
    (hrecv : ∀ j, j < xs.length → (run s (xs.take j)).1.is_receiving = true) :
    timing (run s xs).1 = timing (run r ys).1 := by
  induction xs generalizing s r ys with
  | nil =>
    cases ys with
    | nil => exact h
    | cons y ys => simp at hlen
  | cons x xs ih =>
    cases ys with
    | nil => simp at hlen
    | cons y ys =>
      have h0 : s.is_receiving = true := hrecv 0 (by simp)
      rw [run_cons, run_cons]
      refine ih ys _ _ (timing_step s r x y h h0) (by simpa using hlen) ?_
      intro j hj
      have := hrecv (j + 1) (by simp only [List.length_cons]; omega)
      rw [List.take_succ_cons, run_cons] at this
      exact this

/-- C15 (only one start edge per frame): for two input sequences fed from the
same state that share a prefix `zs` (up to and including the start-edge call)
and continue with `xs` and `ys`, as long as the machine was Receiving before
each call of `xs` (the span up to and including the stop-bit call), the timing
components `is_receiving`, `bit_index`, `ticks_until_sample`, `frac_accum_bit`
and `frac_accum_half` agree after every call.  Within a frame no call runs
`ticks_for_half_bit`, lowers `bit_index` or clears a bit of `rx_byte`, and only
the stop-bit instant leaves Receiving: a falling edge seen while Receiving does
not restart the frame. -/
theorem one_start_edge_per_frame (s0 : State) (zs xs ys : List Nat)
    (hlen : xs.length = ys.length)
    (hrecv : ∀ j, j < xs.length → (run s0 (zs ++ xs.take j)).1.is_receiving = true) :
    (∀ j, j ≤ xs.length →
      timing (run s0 (zs ++ xs.take j)).1 = timing (run s0 (zs ++ ys.take j)).1) ∧
    (∀ (s : State) (v : Nat), s.is_receiving = true → s.rx_byte < 256 →
      (printOut s v).1.frac_accum_half = s.frac_accum_half ∧
      s.bit_index ≤ (printOut s v).1.bit_index ∧
      (∀ j, s.rx_byte.testBit j = true → (printOut s v).1.rx_byte.testBit j = true) ∧
      ((printOut s v).1.is_receiving = false →
        s.ticks_until_sample = 0 ∧ ¬ s.bit_index < 8)) ∧
    (∀ (s : State) (v w : Nat), s.is_receiving = true →
      timing (printOut s v).1 = timing (printOut s w).1) := by
  refine ⟨?_, printOut_receiving_keeps, fun s v w hs => timing_step s s v w rfl hs⟩
  intro j hj
  rw [run_append, run_append]
  dsimp only
  refine run_timing (xs.take j) (ys.take j) _ _ rfl ?_ ?_
  · rw [List.length_take, List.length_take, hlen]
  · intro i hi
    rw [List.length_take] at hi
    have := hrecv i (by omega)
    rw [run_append] at this
    dsimp only at this
    rw [List.take_take, Nat.min_eq_left (by omega)]
    exact this

/-- Witness for C15: after the start edge `[1, 0]` from the initial state, the
continuations `[0, 0, 0]` and `[1, 0, 1]` (a falling edge inside the frame)
give the same timing components. -/
theorem one_start_edge_per_frame_witness :
    timing (run init ([1, 0] ++ List.take 3 [0, 0, 0])).1 =
      timing (run init ([1, 0] ++ List.take 3 [1, 0, 1])).1 :=
  (one_start_edge_per_frame init [1, 0] [0, 0, 0] [1, 0, 1] rfl
    (fun j hj => by
      have hj3 : j < 3 := hj
      interval_cases j <;> decide)).1 3 (le_refl 3)

/-! ## Length of a frame -/

theorem oneBitCalls_congr (n : Nat) (s r : State) (h : s.frac_accum_bit = r.frac_accum_bit) :
    (oneBitCalls n s).1 = (oneBitCalls n r).1 := by
  induction n generalizing s r with
  | zero => rfl
  | succ n ih =>
    obtain ⟨g1, g2⟩ := ticks_for_one_bit_congr s r h
    simp only [oneBitCalls]
    rw [g1, ih _ _ g2]

theorem split_at (xs : List Nat) (t : Nat) (h : t < xs.length) :
    ∃ x1 v rest, xs = x1 ++ v :: rest ∧ x1.length = t := by
  refine ⟨xs.take t, xs[t], xs.drop (t + 1), ?_, ?_⟩
  · rw [← List.drop_eq_getElem_cons h, List.take_append_drop]
  · rw [List.length_take]; omega

/-- From a receiving state with `m` data bits still to sample, the stop-bit
instant comes after `ticks_until_sample + m + (sum of the next m generator
values)` calls; the machine is Receiving and silent up to there. -/
theorem frame_tail (m : Nat) (s : State) (xs : List Nat) (h1 : s.is_receiving = true)
    (h2 : s.bit_index + m = 8)
    (h3 : xs.length = s.ticks_until_sample + m + (oneBitCalls m s).1.sum) :
    (∀ j, j ≤ xs.length →
      (run s (xs.take j)).1.is_receiving = true ∧ (run s (xs.take j)).2 = []) ∧
    (run s xs).1.ticks_until_sample = 0 ∧ (run s xs).1.bit_index = 8 := by
  induction m generalizing s xs with
  | zero =>
    simp only [oneBitCalls, List.sum_nil, Nat.add_zero] at h3 h2
    refine ⟨fun j hj => ?_, ?_, ?_⟩
    · rw [run_countdown (xs.take j) s h1 (by rw [List.length_take]; omega)]
      exact ⟨h1, rfl⟩
    · rw [run_countdown xs s h1 (by omega)]
      dsimp only; omega
    · rw [run_countdown xs s h1 (by omega)]
      exact h2
  | succ m ih =>
    have hk : s.bit_index < 8 := by omega
    simp only [oneBitCalls, List.sum_cons] at h3
    obtain ⟨x1, v, rest, rfl, hx1⟩ := split_at xs s.ticks_until_sample (by omega)
    obtain ⟨q5, q1, q2', -, q3', q4', -, -, -⟩ :=
      printOut_data_state { s with ticks_until_sample := 0 } v h1 rfl hk
    obtain ⟨g1, g2⟩ := ticks_for_one_bit_congr { s with ticks_until_sample := 0 } s rfl
    have q2 : (printOut { s with ticks_until_sample := 0 } v).1.bit_index =
        s.bit_index + 1 := by
      rw [q2']
      show (s.bit_index + 1) % U8 = s.bit_index + 1
      simp only [U8]; omega
    have q3 := q3'.trans g1
    have q4 := q4'.trans g2
    have hrest : rest.length =
        (printOut { s with ticks_until_sample := 0 } v).1.ticks_until_sample + m +
          (oneBitCalls m (printOut { s with ticks_until_sample := 0 } v).1).1.sum := by
      rw [q3, oneBitCalls_congr m _ _ q4]
      simp only [List.length_append, List.length_cons] at h3
      omega
    obtain ⟨i1, i2, i3⟩ := ih _ rest q1 (by omega) hrest
    refine ⟨fun j hj => ?_, ?_, ?_⟩
    · by_cases hjt : j ≤ s.ticks_until_sample
      · rw [run_countdown _ s h1 (by rw [List.length_take]; omega)]
        exact ⟨h1, rfl⟩
      · have e : (x1 ++ v :: rest).take j = x1 ++ v :: rest.take (j - x1.length - 1) := by
          rw [List.take_append_eq_append_take, List.take_of_length_le (by omega)]
          obtain ⟨d, hd⟩ : ∃ d, j - x1.length = d + 1 := ⟨j - x1.length - 1, by omega⟩
          rw [hd, List.take_succ_cons]
          simp
        simp only [List.length_append, List.length_cons] at hj
        rw [e, run_to_sample s x1 v _ h1 hx1]
        dsimp only
        rw [q5]
        exact i1 (j - x1.length - 1) (by omega)
    · rw [run_to_sample s x1 v _ h1 hx1]; exact i2
    · rw [run_to_sample s x1 v _ h1 hx1]; exact i3

theorem oneBitCalls_nine (s : State) (h : s.frac_accum_bit < BAUD_RATE) :
    (oneBitCalls 9 s).1.sum = 12500 + (ticks_for_one_bit s).1 := by
  obtain ⟨a1, a2⟩ := oneBitCalls_even 4 s h
  have e : oneBitCalls 9 s = oneBitCalls (2 * 4 + 1) s := rfl
  rw [e, oneBitCalls_add_fst, List.sum_append, a2, a1, oneBitCalls_one_sum s _ rfl]

/-- The frame length for the accumulator values that occur in a run. -/
theorem frameLength_bounds (s : State)
    (h : s.frac_accum_bit = 0 ∨ s.frac_accum_bit = 57600) :
    14852 ≤ frameLength s ∧ frameLength s ≤ 14854 ∧
    (s.frac_accum_bit = 0 → s.frac_accum_half = 0 → frameLength s = 14852) := by
  have hb : s.frac_accum_bit < BAUD_RATE := by simp only [BAUD_RATE]; omega
  have h9 := oneBitCalls_nine s hb
  have a1 := ticks_for_half_bit_fst s
  have a2 := ticks_for_one_bit_fst s
  unfold frameLength
  rw [h9]
  refine ⟨by omega, by omega, fun hz hh => ?_⟩
  rw [ticks_for_half_bit_eq, ticks_for_one_bit_low s (by omega), hh]
  rfl

/-- C18 (exact frame length): when a call made in an Idle state `s` detects a
start edge, then with `n = frameLength s = 9 + h + s9` (`h` the half-bit value
and `s9` the sum of the nine full-bit values the generators return for this
frame) the edge call prints nothing, the machine is Receiving and silent after
the edge call and after each of the next `n - 1` calls, the `n`-th call after
the edge is the stop-bit instant (`bit_index = 8`, no tick pending), returns
the machine to Idle and prints exactly one item, so the frame prints exactly
one item.  In every state of a run `14852 <= n <= 14854`, and `n = 14852` when
both accumulators have their initial values (the first frame of a run). -/
theorem exact_frame_length (s : State) (v : Nat) (xs : List Nat)
    (hidle : s.is_receiving = false) (hedge : (printOut s v).1.is_receiving = true)
    (hlen : xs.length = frameLength s) :
    (printOut s v).2 = [] ∧
    (∀ j, j < xs.length →
      (run (printOut s v).1 (xs.take j)).1.is_receiving = true ∧
      (run (printOut s v).1 (xs.take j)).2 = []) ∧
    (atSamplingInstant (run (printOut s v).1 (xs.take (xs.length - 1))).1 ∧
      (run (printOut s v).1 (xs.take (xs.length - 1))).1.bit_index = 8) ∧
    (run (printOut s v).1 xs).1.is_receiving = false ∧
    (run (printOut s v).1 xs).2.length = 1 ∧
    (run s (v :: xs)).2.length = 1 ∧
    (∀ zs, 14852 ≤ frameLength (run init zs).1 ∧ frameLength (run init zs).1 ≤ 14854) ∧
    (s.frac_accum_bit = init.frac_accum_bit → s.frac_accum_half = init.frac_accum_half →
      frameLength s = 14852) := by
  have hout : (printOut s v).2 = [] := printOut_idle_output s v hidle
  have hc : v = 0 ∧ s.last_val = 1 ∧ s.seen_idle_one = true := by
    by_contra c
    rw [printOut_idle_stay s v hidle c] at hedge
    exact absurd (hidle.symm.trans hedge) (by decide)
  obtain ⟨rfl, c2, c3⟩ := hc
  obtain ⟨-, -, t2, -, t1', t3, -, -, -⟩ := printOut_edge_state s hidle c2 c3
  have a1 := ticks_for_half_bit_fst s
  have a2 := ticks_for_one_bit_fst s
  have t1 : (printOut s 0).1.ticks_until_sample =
      (ticks_for_half_bit s).1 + (ticks_for_one_bit s).1 := by
    rw [t1']; simp only [U32]; omega
  have hn : frameLength s =
      (printOut s 0).1.ticks_until_sample + 8 + (oneBitCalls 8 (printOut s 0).1).1.sum + 1 := by
    unfold frameLength
    rw [t1, oneBitCalls_congr 8 _ _ t3, oneBitCalls_succ 8 s, List.sum_cons]
    omega
  obtain ⟨x1, w, rest, rfl, hx1⟩ := split_at xs (xs.length - 1) (by omega)
  have hrest : rest = [] := by
    apply List.length_eq_zero.1
    simp only [List.length_append, List.length_cons] at hx1
    omega
  subst hrest
  simp only [List.length_append, List.length_cons, List.length_nil] at hlen
  obtain ⟨i1, i2, i3⟩ := frame_tail 8 (printOut s 0).1 x1 hedge (by omega) (by omega)
  have hfull := i1 x1.length (le_refl _)
  rw [List.take_length] at hfull
  have hstop := printOut_stop (run (printOut s 0).1 x1).1 w hfull.1 i2 (by omega)
  have hlen1 : (run (printOut s 0).1 (x1 ++ [w])).2.length = 1 := by
    rw [run_snoc, hstop, hfull.2]
    dsimp only
    split <;> rfl
  have hlast : (x1 ++ [w]).length - 1 = x1.length := by
    simp only [List.length_append, List.length_cons, List.length_nil]; omega
  refine ⟨hout, fun j hj => ?_, ?_, ?_, hlen1, ?_, fun zs => ?_, fun hb hh => ?_⟩
  · simp only [List.length_append, List.length_cons, List.length_nil] at hj
    rw [List.take_append_of_le_length (by omega)]
    exact i1 j (by omega)
  · rw [hlast, List.take_append_of_le_length (le_refl _), List.take_length]
    exact ⟨⟨hfull.1, i2⟩, i3⟩
  · rw [run_snoc, hstop]
  · rw [run_cons, hout]
    exact hlen1
  · have := frameLength_bounds (run init zs).1 (run_init_frac_accum_bit zs)
    exact ⟨this.1, this.2.1⟩
  · exact (frameLength_bounds s (Or.inl hb)).2.2 hb hh

/-- Witness for C18: the first frame of a run, the line held low for the
14852 calls after the edge call. -/
theorem exact_frame_length_witness :
    (armedInit.is_receiving = false ∧ (printOut armedInit 0).1.is_receiving = true ∧
      (List.replicate 14852 0).length = frameLength armedInit) ∧
    (run (printOut armedInit 0).1 (List.replicate 14852 0)).1.is_receiving = false ∧
    (run (printOut armedInit 0).1 (List.replicate 14852 0)).2.length = 1 ∧
    (run armedInit (0 :: List.replicate 14852 0)).2.length = 1 :=
  ⟨⟨rfl, by decide, (List.length_replicate 14852 0).trans (by decide)⟩,
   (exact_frame_length armedInit 0 (List.replicate 14852 0) rfl (by decide)
      ((List.length_replicate 14852 0).trans (by decide))).2.2.2.1,
   (exact_frame_length armedInit 0 (List.replicate 14852 0) rfl (by decide)
      ((List.length_replicate 14852 0).trans (by decide))).2.2.2.2.1,
   (exact_frame_length armedInit 0 (List.replicate 14852 0) rfl (by decide)
      ((List.length_replicate 14852 0).trans (by decide))).2.2.2.2.2.1⟩

/-- The stop-bit instant of the first frame of a run, sampled at level 1, prints
the assembled byte: after one logic-1 sample, the edge sample and 14851 further
samples of any levels the machine is at the stop-bit instant. -/
theorem first_frame_char (ys : List Nat) (h : ys.length = 14851) :
    (printOut (run init (1 :: 0 :: ys)).1 1).2 =
      [Output.char (run init (1 :: 0 :: ys)).1.rx_byte] := by
  have a : (printOut init 1).1 = armedInit := by decide
  have e : (run init (1 :: 0 :: ys)).1 = (run (printOut armedInit 0).1 ys).1 := by
    rw [run_cons, run_cons, a]
  have hr : (printOut armedInit 0).1.is_receiving = true := by decide
  have hb : (printOut armedInit 0).1.bit_index + 8 = 8 := by decide
  have hl : ys.length = (printOut armedInit 0).1.ticks_until_sample + 8 +
      (oneBitCalls 8 (printOut armedInit 0).1).1.sum := by
    rw [h]; decide
  obtain ⟨i1, i2, i3⟩ := frame_tail 8 (printOut armedInit 0).1 ys hr hb hl
  have hfull := i1 ys.length (le_refl _)
  rw [List.take_length] at hfull
  rw [e, printOut_stop _ 1 hfull.1 i2 (by omega)]
  rfl

/-- Witness for C12: in the first frame of a run with the line held low, the
call at the stop-bit instant with level 1 prints a character, which is the
LSB-first value of the eight sampled bits. -/
theorem assembled_byte_lsb_first_witness :
    ∃ v0 v1 v2 v3 v4 v5 v6 v7,
      frameBits init [] (1 :: 0 :: List.replicate 14851 0) = [v0, v1, v2, v3, v4, v5, v6, v7] ∧
      (v0 ≤ 1 ∧ v1 ≤ 1 ∧ v2 ≤ 1 ∧ v3 ≤ 1 ∧ v4 ≤ 1 ∧ v5 ≤ 1 ∧ v6 ≤ 1 ∧ v7 ≤ 1) ∧
      (run init (1 :: 0 :: List.replicate 14851 0)).1.rx_byte =
        v0 * 2 ^ 0 + v1 * 2 ^ 1 + v2 * 2 ^ 2 + v3 * 2 ^ 3 + v4 * 2 ^ 4 + v5 * 2 ^ 5 +
          v6 * 2 ^ 6 + v7 * 2 ^ 7 :=
  (assembled_byte_lsb_first (1 :: 0 :: List.replicate 14851 0) 1 _).1
    (first_frame_char _ (List.length_replicate 14851 0))

end Rs232
